import Mathlib

/-!
Shallow embedding of the `biodivine-xml-doc` arena XML tree
(`src/element.rs`, `src/document.rs`) and proofs about its
mutation API, namespace-resolution engine, writer and text-content
operations.

Conventions used throughout:
* an element handle is a bare index into the arena (`Element` in the source);
* Rust panics (`unwrap`, out-of-range `Vec` indexing) are modelled by an
  `Option.none` result, recoverable errors by `Except.error`;
* `&mut Document` methods become explicit state passing: each operation
  returns the document it left behind, also on the error paths;
* `HashMap<String, String>` fields become association lists,
  `HashSet<&str>` values become `Finset String`;
* the unbounded parent-chain / subtree walks of the source receive an
  explicit fuel argument; exhausted fuel is `Option.none` as well.
-/

namespace XmlDoc

/-- Handle of an element: a bare index into the document arena
(struct `Element { id: usize }` in `element.rs`). -/
structure Element where
  id : Nat
  deriving DecidableEq, Repr

/-- A tree node (`enum Node` in `document.rs`): an element reference or
one of the leaf payloads. -/
inductive Node where
  | element : Element → Node
  | text : String → Node
  | comment : String → Node
  | cdata : String → Node
  | pi : String → Node
  | docType : String → Node
  deriving DecidableEq, Repr

/-- Data of one element record (`ElementData` in `element.rs`).
The two `HashMap<String, String>` fields are modelled as association
lists. -/
structure ElementData where
  full_name : String
  attributes : List (String × String)
  namespace_decls : List (String × String)
  parent : Option Element
  children : List Node
  deriving DecidableEq, Repr

/-- The arena document (`Document` in `document.rs`): a counter, the
store of element records, the container handle and document metadata. -/
structure Document where
  counter : Nat
  store : List ElementData
  container : Element
  version : String
  standalone : Bool
  deriving DecidableEq, Repr

/-- The recoverable mutation errors of `error.rs` used by the tree API. -/
inductive Error where
  | hasAParent
  | containerCannotMove
  deriving DecidableEq, Repr

/-- `Node::as_element`. -/
def Node.asElement : Node → Option Element
  | Node.element e => some e
  | _ => none

/-- `Element::is_container`: handle 0 is the container sentinel. -/
def Element.isContainer (e : Element) : Bool :=
  e.id = 0

/-- Arena read (`Element::data`): `none` models the `unwrap` panic on a
handle that does not point into the store. -/
def Document.dataOf (doc : Document) (e : Element) : Option ElementData :=
  doc.store[e.id]?

/-- Arena write: replace the record of `e` (callers establish that the
handle is valid before using this). -/
def Document.setData (doc : Document) (e : Element) (d : ElementData) : Document :=
  { doc with store := doc.store.set e.id d }

/-- `Element::parent`, with `none` both for a parentless element and for
an invalid handle. -/
def parentOf (doc : Document) (e : Element) : Option Element :=
  match doc.dataOf e with
  | some d => d.parent
  | none => none

/-- `Element::children`, defaulting to `[]` on an invalid handle. -/
def childrenOf (doc : Document) (e : Element) : List Node :=
  match doc.dataOf e with
  | some d => d.children
  | none => []

/-- `Element::namespace_decls`, defaulting to `[]` on an invalid handle. -/
def declsOf (doc : Document) (e : Element) : List (String × String) :=
  match doc.dataOf e with
  | some d => d.namespace_decls
  | none => []

/-- Split a character list at the first occurrence of `sep`
(`str::split_once`). -/
def splitOnce (sep : Char) : List Char → Option (List Char × List Char)
  | [] => none
  | c :: rest =>
    if c = sep then some ([], rest)
    else (splitOnce sep rest).map (fun pr => (c :: pr.1, pr.2))

/-- `Element::separate_prefix_name`: split a full name at the first `:`;
a name with no `:` has the empty prefix. -/
def separatePrefixName (s : String) : String × String :=
  match splitOnce ':' s.toList with
  | some (p, n) => (String.mk p, String.mk n)
  | none => ("", s)

/-- The namespace prefix of an element's full name (`Element::prefix`),
defaulting to `""` on an invalid handle. -/
def prefixOf (doc : Document) (e : Element) : String :=
  match doc.dataOf e with
  | some d => (separatePrefixName d.full_name).1
  | none => ""

/-- `Document::new`: store holding only the container record, counter 1. -/
def Document.new : Document :=
  { counter := 1
    store := [⟨"", [], [], none, []⟩]
    container := ⟨0⟩
    version := "1.0"
    standalone := false }

/-- `Element::with_data` (the arena's allocating constructor): a fresh
record is appended and receives handle `doc.counter`. -/
def newElement (doc : Document) (full_name : String)
    (attributes namespace_decls : List (String × String)) : Element × Document :=
  (⟨doc.counter⟩,
    { doc with
        counter := doc.counter + 1
        store := doc.store ++ [⟨full_name, attributes, namespace_decls, none, []⟩] })

/-- `Element::push_child`: rejects the container and already-parented
elements, otherwise sets the child's parent back-reference and appends
the node to the parent's children. -/
def pushChild (doc : Document) (self : Element) (node : Node) :
    Option (Except Error Unit × Document) :=
  match node with
  | Node.element elem =>
    if elem.isContainer then some (Except.error Error.containerCannotMove, doc)
    else
      match doc.dataOf elem with
      | none => none
      | some ed =>
        if ed.parent.isSome then some (Except.error Error.hasAParent, doc)
        else
          let doc1 := doc.setData elem { ed with parent := some self }
          match doc1.dataOf self with
          | none => none
          | some sd =>
            some (Except.ok (), doc1.setData self { sd with children := sd.children ++ [node] })
  | _ =>
    match doc.dataOf self with
    | none => none
    | some sd =>
      some (Except.ok (), doc.setData self { sd with children := sd.children ++ [node] })

/-- Insertion into a list at an index, `none` when the index exceeds the
length (the `Vec::insert` panic). -/
def insertAt : Nat → Node → List Node → Option (List Node)
  | 0, n, l => some (n :: l)
  | _ + 1, _, [] => none
  | i + 1, n, x :: l => (insertAt i n l).map (fun r => x :: r)

/-- `Element::insert_child`: as `push_child` but splicing at `index`;
an out-of-range index is a panic, not a recoverable error. -/
def insertChild (doc : Document) (self : Element) (index : Nat) (node : Node) :
    Option (Except Error Unit × Document) :=
  match node with
  | Node.element elem =>
    if elem.isContainer then some (Except.error Error.containerCannotMove, doc)
    else
      match doc.dataOf elem with
      | none => none
      | some ed =>
        if ed.parent.isSome then some (Except.error Error.hasAParent, doc)
        else
          let doc1 := doc.setData elem { ed with parent := some self }
          match doc1.dataOf self with
          | none => none
          | some sd =>
            match insertAt index node sd.children with
            | none => none
            | some l => some (Except.ok (), doc1.setData self { sd with children := l })
  | _ =>
    match doc.dataOf self with
    | none => none
    | some sd =>
      match insertAt index node sd.children with
      | none => none
      | some l => some (Except.ok (), doc.setData self { sd with children := l })

/-- Removal from a list at an index, `none` when out of range
(the `Vec::remove` panic). -/
def removeAt : Nat → List Node → Option (Node × List Node)
  | _, [] => none
  | 0, x :: l => some (x, l)
  | i + 1, x :: l => (removeAt i l).map (fun pr => (pr.1, x :: pr.2))

/-- `Element::remove_child`: splice out the node at `index` and, when it
is an element, clear its parent back-reference. -/
def removeChild (doc : Document) (self : Element) (index : Nat) :
    Option (Node × Document) :=
  match doc.dataOf self with
  | none => none
  | some sd =>
    match removeAt index sd.children with
    | none => none
    | some (node, rest) =>
      let doc1 := doc.setData self { sd with children := rest }
      match node with
      | Node.element elem =>
        match doc1.dataOf elem with
        | none => none
        | some ed => some (node, doc1.setData elem { ed with parent := none })
      | _ => some (node, doc1)

/-- `Element::pop_child`: `Vec::pop` semantics; empty children is a
successful no-op, a popped element loses its parent back-reference. -/
def popChild (doc : Document) (self : Element) : Option (Option Node × Document) :=
  match doc.dataOf self with
  | none => none
  | some sd =>
    match sd.children.getLast? with
    | none => some (none, doc)
    | some node =>
      let doc1 := doc.setData self { sd with children := sd.children.dropLast }
      match node with
      | Node.element elem =>
        match doc1.dataOf elem with
        | none => none
        | some ed => some (some node, doc1.setData elem { ed with parent := none })
      | _ => some (some node, doc1)

/-- The loop body of `Element::clear_children`: remove the child at
index 0 the given number of times, collecting the removed nodes. -/
def clearLoop (self : Element) : Nat → Document → Option (List Node × Document)
  | 0, doc => some ([], doc)
  | k + 1, doc =>
    match removeChild doc self 0 with
    | none => none
    | some (node, doc1) =>
      match clearLoop self k doc1 with
      | none => none
      | some (rest, doc2) => some (node :: rest, doc2)

/-- `Element::clear_children`: remove every child in order, returning
them. -/
def clearChildren (doc : Document) (self : Element) : Option (List Node × Document) :=
  match doc.dataOf self with
  | none => none
  | some sd => clearLoop self sd.children.length doc

/-- `Element::detatch` (spelling of the source): reject the container,
no-op without a parent, otherwise locate this element in the parent's
children by identity and remove it there. -/
def detatch (doc : Document) (self : Element) : Option (Except Error Unit × Document) :=
  if self.isContainer then some (Except.error Error.containerCannotMove, doc)
  else
    match doc.dataOf self with
    | none => none
    | some sd =>
      match sd.parent with
      | none => some (Except.ok (), doc)
      | some parent =>
        match doc.dataOf parent with
        | none => none
        | some pd =>
          match pd.children.findIdx? (fun n => n.asElement = some self) with
          | none => none
          | some pos =>
            match removeChild doc parent pos with
            | none => none
            | some (_, doc1) => some (Except.ok (), doc1)

/-- `Document::push_root_node`: push onto the container's children. -/
def pushRootNode (doc : Document) (node : Node) : Option (Except Error Unit × Document) :=
  pushChild doc doc.container node

/-- One step of the mutation API: an allocation or a successful
mutation (recoverable errors leave the document unchanged, so they need
no step of their own). -/
inductive Step : Document → Document → Prop where
  | newElem (doc : Document) (full_name : String)
      (attributes namespace_decls : List (String × String)) :
      Step doc (newElement doc full_name attributes namespace_decls).2
  | push (doc : Document) (self : Element) (node : Node) (doc' : Document) :
      pushChild doc self node = some (Except.ok (), doc') → Step doc doc'
  | insert (doc : Document) (self : Element) (index : Nat) (node : Node) (doc' : Document) :
      insertChild doc self index node = some (Except.ok (), doc') → Step doc doc'
  | remove (doc : Document) (self : Element) (index : Nat) (node : Node) (doc' : Document) :
      removeChild doc self index = some (node, doc') → Step doc doc'
  | pop (doc : Document) (self : Element) (r : Option Node) (doc' : Document) :
      popChild doc self = some (r, doc') → Step doc doc'
  | clear (doc : Document) (self : Element) (r : List Node) (doc' : Document) :
      clearChildren doc self = some (r, doc') → Step doc doc'
  | det (doc : Document) (self : Element) (doc' : Document) :
      detatch doc self = some (Except.ok (), doc') → Step doc doc'
  | pushRoot (doc : Document) (node : Node) (doc' : Document) :
      pushRootNode doc node = some (Except.ok (), doc') → Step doc doc'

/-- Documents reachable from `Document::new` through the mutation API. -/
def Reachable (doc : Document) : Prop :=
  Relation.ReflTransGen Step Document.new doc

/-- The structural consistency invariant of the arena tree: the counter
matches the store, a parent back-reference points at a valid record
whose children hold the child exactly once, and every element found in
a children sequence points back at exactly that parent. -/
structure Inv (doc : Document) : Prop where
  counter_eq : doc.counter = doc.store.length
  parent_count : ∀ e p : Element, parentOf doc e = some p →
    p.id < doc.store.length ∧ (childrenOf doc p).count (Node.element e) = 1
  child_parent : ∀ p e : Element, Node.element e ∈ childrenOf doc p →
    e.id < doc.store.length ∧ parentOf doc e = some p

/-- The chain `e`, `e`'s parent, ... up to the parentless root, if the
walk both stays inside the arena and ends within `fuel` steps. -/
def parentChain (doc : Document) : Nat → Element → Option (List Element)
  | 0, _ => none
  | fuel + 1, e =>
    match doc.dataOf e with
    | none => none
    | some d =>
      match d.parent with
      | none => some [e]
      | some p => (parentChain doc fuel p).map (fun ch => e :: ch)

/-- The fixed URI the `xml` prefix always resolves to. -/
def xmlNamespaceURI : String := "http://www.w3.org/XML/1998/namespace"

/-- The fixed URI the `xmlns` prefix always resolves to. -/
def xmlnsNamespaceURI : String := "http://www.w3.org/2000/xmlns/"

/-- The walk-up loop of `Element::namespace_for_prefix`: first local
declaration of `pre` wins; a root reached with no match resolves the
empty prefix to `""` and anything else to "not declared". -/
def nsLookupLoop (doc : Document) : Nat → Element → String → Option (Option String)
  | 0, _, _ => none
  | fuel + 1, e, pre =>
    match doc.dataOf e with
    | none => none
    | some d =>
      match List.lookup pre d.namespace_decls with
      | some value => some (some value)
      | none =>
        match d.parent with
        | some p => nsLookupLoop doc fuel p pre
        | none => if pre = "" then some (some "") else some none

/-- `Element::namespace_for_prefix`: the two fixed prefixes are answered
without consulting any declarations, everything else by the walk-up. -/
def namespaceForPrefix (doc : Document) (fuel : Nat) (e : Element) (pre : String) :
    Option (Option String) :=
  if pre = "xml" then some (some xmlNamespaceURI)
  else if pre = "xmlns" then some (some xmlnsNamespaceURI)
  else nsLookupLoop doc fuel e pre

/-- The walk the specification describes for `namespace_for_prefix`,
over an explicit ancestor chain: the first chain member whose local
declarations contain `pre` supplies the URL. -/
def specNsForPrefixWalk (doc : Document) (ch : List Element) (pre : String) : Option String :=
  match ch with
  | [] => if pre = "" then some "" else none
  | e :: rest =>
    match List.lookup pre (declsOf doc e) with
    | some value => some value
    | none => specNsForPrefixWalk doc rest pre

/-- Lexicographic comparison of character lists by Unicode scalar
value: the plain string ordering Rust's `str` comparison and `BTreeMap`
iteration use (UTF-8 byte order agrees with scalar-value order). -/
def charListLt : List Char → List Char → Bool
  | [], [] => false
  | [], _ :: _ => true
  | _ :: _, [] => false
  | a :: as, b :: bs =>
    if a.toNat < b.toNat then true
    else if b.toNat < a.toNat then false
    else charListLt as bs

/-- The plain lexicographic string ordering. -/
def strLt (a b : String) : Bool :=
  charListLt a.toList b.toList

/-- The non-strict companion of `strLt`, used to fix an iteration order
for modelled hash sets. -/
def strLe (a b : String) : Prop :=
  strLt b a = false

theorem charListLt_irrefl : ∀ l : List Char, charListLt l l = false := by
  intro l
  induction l with
  | nil => rfl
  | cons a as ih => rw [charListLt]; simp [ih]

theorem charListLt_trans : ∀ {a b c : List Char}, charListLt a b = true →
    charListLt b c = true → charListLt a c = true := by
  intro a
  induction a with
  | nil =>
    intro b c hab hbc
    cases b with
    | nil => exact Bool.noConfusion hab
    | cons y ys =>
      cases c with
      | nil => rw [charListLt] at hbc; exact Bool.noConfusion hbc
      | cons z zs => rfl
  | cons x xs ih =>
    intro b c hab hbc
    cases b with
    | nil => rw [charListLt] at hab; exact Bool.noConfusion hab
    | cons y ys =>
      cases c with
      | nil => rw [charListLt] at hbc; exact Bool.noConfusion hbc
      | cons z zs =>
        rw [charListLt] at hab hbc ⊢
        by_cases hxy : x.toNat < y.toNat
        · by_cases hyz : y.toNat < z.toNat
          · rw [if_pos (by omega)]
          · rw [if_neg hyz] at hbc
            by_cases hzy : z.toNat < y.toNat
            · rw [if_pos hzy] at hbc
              exact Bool.noConfusion hbc
            · rw [if_pos (by omega)]
        · rw [if_neg hxy] at hab
          by_cases hyx : y.toNat < x.toNat
          · rw [if_pos hyx] at hab
            exact Bool.noConfusion hab
          · rw [if_neg hyx] at hab
            by_cases hyz : y.toNat < z.toNat
            · rw [if_pos (by omega)]
            · rw [if_neg hyz] at hbc
              by_cases hzy : z.toNat < y.toNat
              · rw [if_pos hzy] at hbc
                exact Bool.noConfusion hbc
              · rw [if_neg hzy] at hbc
                rw [if_neg (by omega), if_neg (by omega)]
                exact ih hab hbc

theorem charListLt_connex : ∀ {a b : List Char}, charListLt a b = false →
    charListLt b a = false → a = b := by
  intro a
  induction a with
  | nil =>
    intro b h1 h2
    cases b with
    | nil => rfl
    | cons y ys => rw [charListLt] at h1; exact Bool.noConfusion h1
  | cons x xs ih =>
    intro b h1 h2
    cases b with
    | nil => rw [charListLt] at h2; exact Bool.noConfusion h2
    | cons y ys =>
      rw [charListLt] at h1 h2
      by_cases hxy : x.toNat < y.toNat
      · rw [if_pos hxy] at h1
        exact Bool.noConfusion h1
      · by_cases hyx : y.toNat < x.toNat
        · rw [if_pos hyx] at h2
          exact Bool.noConfusion h2
        · rw [if_neg hxy, if_neg hyx] at h1
          rw [if_neg hyx, if_neg hxy] at h2
          have hx : x = y := Char.ext (UInt32.ext (show x.toNat = y.toNat by omega))
          rw [hx, ih h1 h2]

theorem strLt_irrefl (a : String) : strLt a a = false :=
  charListLt_irrefl a.toList

theorem strLt_trans {a b c : String} (h1 : strLt a b = true) (h2 : strLt b c = true) :
    strLt a c = true :=
  charListLt_trans h1 h2

theorem strLt_connex {a b : String} (h1 : strLt a b = false) (h2 : strLt b a = false) :
    a = b :=
  String.ext (charListLt_connex h1 h2)

theorem strLt_asymm {a b : String} (h : strLt a b = true) : strLt b a = false := by
  cases hc : strLt b a with
  | false => rfl
  | true =>
    have := strLt_trans h hc
    rw [strLt_irrefl] at this
    exact Bool.noConfusion this

theorem strLe_trans {a b c : String} (h1 : strLe a b) (h2 : strLe b c) : strLe a c := by
  rw [strLe] at h1 h2 ⊢
  cases hc : strLt c a with
  | false => rfl
  | true =>
    cases hab : strLt a b with
    | true =>
      have := strLt_trans hc hab
      rw [h2] at this
      exact Bool.noConfusion this
    | false =>
      have : a = b := strLt_connex hab h1
      rw [this] at hc
      rw [h2] at hc
      exact Bool.noConfusion hc

theorem strLt_lt_of_le {a b c : String} (h1 : strLt a b = true) (h2 : strLt c b = false) :
    strLt a c = true := by
  cases hbc : strLt b c with
  | true => exact strLt_trans h1 hbc
  | false =>
    have : b = c := strLt_connex hbc h2
    rw [← this]
    exact h1

instance : DecidableRel strLe := fun a b => by
  unfold strLe
  infer_instance

instance : IsTrans String strLe :=
  ⟨fun _ _ _ h1 h2 => strLe_trans h1 h2⟩

instance : IsAntisymm String strLe :=
  ⟨fun _ _ h1 h2 => strLt_connex h2 h1⟩

instance : IsTotal String strLe :=
  ⟨fun a b => by
    cases h : strLt b a with
    | false => exact Or.inl h
    | true => exact Or.inr (strLt_asymm h)⟩

/-- The loop body of the candidate scan in `Element::closest_prefix`:
keep the lexicographically smaller prefix among those declared for
`url`. -/
def minStep (url : String) (cand : Option String) (pv : String × String) : Option String :=
  if pv.2 = url then
    match cand with
    | some current => if strLt pv.1 current then some pv.1 else some current
    | none => some pv.1
  else cand

/-- The candidate fold of `Element::closest_prefix` over one element's
declarations: the lexicographically smallest prefix declared for `url`. -/
def minCandidate (decls : List (String × String)) (url : String) : Option String :=
  decls.foldl (minStep url) none

/-- `Element::closest_prefix`: walk upward from `e` (inclusive); the
first level that declares `url` at all answers with its smallest such
prefix; a root reached without a match answers `""` exactly when `url`
is empty. -/
def closestPrefix (doc : Document) : Nat → Element → String → Option (Option String)
  | 0, _, _ => none
  | fuel + 1, e, url =>
    match doc.dataOf e with
    | none => none
    | some d =>
      match minCandidate d.namespace_decls url with
      | some c => some (some c)
      | none =>
        match d.parent with
        | some p => closestPrefix doc fuel p url
        | none => if url = "" then some (some "") else some none

/-- All prefixes one element's declarations map to `url`. -/
def matchingPrefixes (decls : List (String × String)) (url : String) : List String :=
  (decls.filter (fun pv => pv.2 = url)).map Prod.fst

/-- The first chain member declaring at least one prefix for `url` (the
level the specification says `closest_prefix` answers from). -/
def firstDeclaring (doc : Document) (ch : List Element) (url : String) : Option Element :=
  ch.find? (fun x => !(matchingPrefixes (declsOf doc x) url).isEmpty)

/-- One level of `collect_namespace_prefixes` (the loop body of its
inner `recursion`): a declaration for `url` adds its prefix, any other
declaration removes its prefix from the running set if present. -/
def processDecls (decls : List (String × String)) (url : String) (s : Finset String) :
    Finset String :=
  decls.foldl
    (fun acc pv =>
      if pv.2 = url then insert pv.1 acc
      else if pv.1 ∈ acc then acc.erase pv.1 else acc)
    s

/-- The recursion of `collect_namespace_prefixes`: climb to the root
first, then process each level's declarations while unwinding. -/
def cnpRec (doc : Document) : Nat → Element → String → Finset String → Option (Finset String)
  | 0, _, _, _ => none
  | fuel + 1, e, url, acc =>
    match doc.dataOf e with
    | none => none
    | some d =>
      match d.parent with
      | none => some (processDecls d.namespace_decls url acc)
      | some p => (cnpRec doc fuel p url acc).map (processDecls d.namespace_decls url)

/-- `Element::collect_namespace_prefixes`: for the empty URL the empty
prefix starts in the set; then the root-first recursion runs. -/
def collectNamespacePrefixes (doc : Document) (fuel : Nat) (e : Element) (url : String) :
    Option (Finset String) :=
  cnpRec doc fuel e url (if url = "" then {""} else ∅)

/-- The locally declared prefixes whose target equals `url`. -/
def declKeysFor (decls : List (String × String)) (url : String) : Finset String :=
  ((decls.filter (fun pv => pv.2 = url)).map Prod.fst).toFinset

/-- The locally declared prefixes whose target differs from `url`. -/
def declKeysNotFor (decls : List (String × String)) (url : String) : Finset String :=
  ((decls.filter (fun pv => ¬(pv.2 = url))).map Prod.fst).toFinset

/-- One level of the specification's description of
`collect_namespace_prefixes`: add every matching declared prefix,
remove every non-matching declared prefix. -/
def specLevel (url : String) (decls : List (String × String)) (s : Finset String) :
    Finset String :=
  (s \ declKeysNotFor decls url) ∪ declKeysFor decls url

/-- The set the specification describes: start at the root, apply each
level while descending back to the element, the empty prefix starting
in the set exactly when `url` is empty. -/
def specCollect (doc : Document) (ch : List Element) (url : String) : Finset String :=
  ch.reverse.foldl (fun s x => specLevel url (declsOf doc x) s)
    (if url = "" then {""} else ∅)

mutual

/-- The inner `collect_prefixes` of
`Element::collect_external_namespace_decls`: record this element's own
prefix when the prefixes declared above it inside the subtree do not
contain it, extend the known set with the local declarations, recurse
into the child elements. -/
def cedRec (doc : Document) : Nat → Element → Finset String → Finset String →
    Option (Finset String)
  | 0, _, _, _ => none
  | fuel + 1, e, known, unknown =>
    match doc.dataOf e with
    | none => none
    | some d =>
      let myPre := (separatePrefixName d.full_name).1
      let unknown1 := if myPre ∈ known then unknown else insert myPre unknown
      let myKnown :=
        if d.namespace_decls.isEmpty then known
        else known ∪ (d.namespace_decls.map Prod.fst).toFinset
      cedChildren doc fuel (d.children.filterMap Node.asElement) myKnown unknown1
  termination_by fuel _ _ => (fuel, 0)

/-- The child loop of `collect_prefixes`, threading the accumulator of
prefixes found so far left to right. -/
def cedChildren (doc : Document) (fuel : Nat) : List Element → Finset String → Finset String →
    Option (Finset String)
  | [], _, unknown => some unknown
  | c :: rest, known, unknown =>
    match cedRec doc fuel c known unknown with
    | none => none
    | some u1 => cedChildren doc fuel rest known u1
  termination_by l _ _ => (fuel, l.length + 1)

end

/-- The resolution loop closing `collect_external_namespace_decls`:
each collected prefix is resolved by the walk-up from the collection
root; an unresolvable prefix is the fatal `panic!` (the inner `none`). -/
def resolveAll (doc : Document) (fuel : Nat) (e : Element) :
    List String → Option (Option (Finset (String × String)))
  | [] => some (some ∅)
  | p :: rest =>
    match namespaceForPrefix doc fuel e p with
    | none => none
    | some none => some none
    | some (some url) =>
      match resolveAll doc fuel e rest with
      | none => none
      | some none => some none
      | some (some m) => some (some (insert (p, url) m))

/-- `Element::collect_external_namespace_decls`: collect the used but
locally undeclared prefixes of the subtree, then resolve each from the
subtree root; the inner `none` is the fatal panic on an undeclared
prefix. -/
def collectExternalNamespaceDecls (doc : Document) (fuel : Nat) (e : Element) :
    Option (Option (Finset (String × String))) :=
  match cedRec doc fuel e ∅ ∅ with
  | none => none
  | some unknown => resolveAll doc fuel e (unknown.sort strLe)

mutual

/-- The set the specification describes for the external-declaration
scan: an element contributes its own prefix when the prefixes declared
strictly above it within the subtree do not contain it; children are
scanned with the known set extended by the local declarations. -/
def specUnknown (doc : Document) : Nat → Element → Finset String → Option (Finset String)
  | 0, _, _ => none
  | fuel + 1, e, known =>
    match doc.dataOf e with
    | none => none
    | some d =>
      let myPre := (separatePrefixName d.full_name).1
      let own : Finset String := if myPre ∈ known then ∅ else {myPre}
      match specUnknownList doc fuel (d.children.filterMap Node.asElement)
          (known ∪ (d.namespace_decls.map Prod.fst).toFinset) with
      | none => none
      | some s => some (own ∪ s)
  termination_by fuel _ _ => (fuel, 0)

/-- Union over a list of sibling subtrees for `specUnknown`. -/
def specUnknownList (doc : Document) (fuel : Nat) : List Element → Finset String →
    Option (Finset String)
  | [], _ => some ∅
  | c :: rest, known =>
    match specUnknown doc fuel c known with
    | none => none
    | some s1 =>
      match specUnknownList doc fuel rest known with
      | none => none
      | some s2 => some (s1 ∪ s2)
  termination_by l _ => (fuel, l.length + 1)

end

/-- The event vocabulary of the writer adapter (the `quick_xml` events
`Document::write_*` emits). -/
inductive XmlEvent where
  | start : String → List (String × String) → XmlEvent
  | endTag : String → XmlEvent
  | empty : String → List (String × String) → XmlEvent
  | text : String → XmlEvent
  | comment : String → XmlEvent
  | cdata : String → XmlEvent
  | pi : String → XmlEvent
  | docType : String → XmlEvent
  deriving DecidableEq, Repr

/-- One `BTreeMap` insertion into a key-sorted association list: a
smaller key goes in front, an equal key is replaced, a larger key moves
on. -/
def btreeInsert : List (String × String) → String × String → List (String × String)
  | [], kv => [kv]
  | hd :: tl, kv =>
    if strLt kv.1 hd.1 then kv :: hd :: tl
    else if kv.1 = hd.1 then kv :: tl
    else hd :: btreeInsert tl kv

/-- `BTreeMap::from_iter` over an association list: fold the entries
into a key-sorted list. -/
def btreeFromList (l : List (String × String)) : List (String × String) :=
  l.foldl btreeInsert []

/-- The attribute name a namespace declaration is written under:
`xmlns` for the default prefix, `xmlns:p` otherwise. -/
def nsAttrName (p : String) : String :=
  if p = "" then "xmlns" else "xmlns:" ++ p

/-- The attribute list `Document::write_element` pushes onto the start
tag: the sorted attributes, then the sorted namespace declarations. -/
def writtenAttrs (d : ElementData) : List (String × String) :=
  btreeFromList d.attributes ++
    (btreeFromList d.namespace_decls).map (fun pv => (nsAttrName pv.1, pv.2))

mutual

/-- `Document::write_element`: childless elements become one `Empty`
event, the rest a `Start` event, the recursively written children and
an `End` event. -/
def writeElement (doc : Document) : Nat → Element → Option (List XmlEvent)
  | 0, _ => none
  | fuel + 1, e =>
    match doc.dataOf e with
    | none => none
    | some d =>
      if d.children.isEmpty then some [XmlEvent.empty d.full_name (writtenAttrs d)]
      else
        match writeNodes doc fuel d.children with
        | none => none
        | some evs =>
          some (XmlEvent.start d.full_name (writtenAttrs d) :: evs ++
            [XmlEvent.endTag d.full_name])
  termination_by fuel _ => (fuel, 0)

/-- `Document::write_nodes`: leaf nodes map one-to-one onto events,
element nodes recurse. -/
def writeNodes (doc : Document) (fuel : Nat) : List Node → Option (List XmlEvent)
  | [] => some []
  | n :: rest =>
    match
      (match n with
       | Node.element e => writeElement doc fuel e
       | Node.text s => some [XmlEvent.text s]
       | Node.docType s => some [XmlEvent.docType s]
       | Node.comment s => some [XmlEvent.comment s]
       | Node.cdata s => some [XmlEvent.cdata s]
       | Node.pi s => some [XmlEvent.pi s]) with
    | none => none
    | some evs => (writeNodes doc fuel rest).map (fun evs2 => evs ++ evs2)
  termination_by l => (fuel, l.length + 1)

end

mutual

/-- `Node::build_text_content`: text, CDATA and PI content is appended
to the buffer, comments and doctypes are skipped, elements recurse. -/
def nodeBuildText (doc : Document) : Nat → Node → String → Option String
  | fuel, Node.element e, buf => elemBuildText doc fuel e buf
  | _, Node.text s, buf => some (buf ++ s)
  | _, Node.cdata s, buf => some (buf ++ s)
  | _, Node.pi s, buf => some (buf ++ s)
  | _, Node.comment _, buf => some buf
  | _, Node.docType _, buf => some buf
  termination_by fuel _ _ => (fuel, 1)

/-- `Element::build_text_content`: fold the children through the
buffer. -/
def elemBuildText (doc : Document) : Nat → Element → String → Option String
  | 0, _, _ => none
  | fuel + 1, e, buf =>
    match doc.dataOf e with
    | none => none
    | some d => nodesBuildText doc fuel d.children buf
  termination_by fuel _ _ => (fuel, 0)

/-- The child loop of `Element::build_text_content`. -/
def nodesBuildText (doc : Document) (fuel : Nat) : List Node → String → Option String
  | [], buf => some buf
  | n :: rest, buf =>
    match nodeBuildText doc fuel n buf with
    | none => none
    | some buf1 => nodesBuildText doc fuel rest buf1
  termination_by l _ => (fuel, l.length + 2)

end

/-- `Element::text_content`: build into an empty buffer. -/
def textContent (doc : Document) (fuel : Nat) (e : Element) : Option String :=
  elemBuildText doc fuel e ""

/-- `Node::text_content`: build into an empty buffer. -/
def nodeTextContent (doc : Document) (fuel : Nat) (n : Node) : Option String :=
  nodeBuildText doc fuel n ""

/-- The flattened subtree in document order (`_children_recursive`):
each node, and below an element node its flattened children. -/
def flattenNodes (doc : Document) : Nat → List Node → Option (List Node)
  | _, [] => some []
  | 0, Node.element _ :: _ => none
  | fuel + 1, Node.element e :: rest =>
    match doc.dataOf e with
    | none => none
    | some d =>
      match flattenNodes doc fuel d.children with
      | none => none
      | some sub =>
        match flattenNodes doc (fuel + 1) rest with
        | none => none
        | some rs => some (Node.element e :: (sub ++ rs))
  | fuel, n :: rest => (flattenNodes doc fuel rest).map (fun rs => n :: rs)
  termination_by fuel l => (fuel, l.length)

/-- The text a node contributes to `text_content`: the content of a
text, CDATA or PI node, nothing for the others. -/
def pieceOf : Node → Option String
  | Node.text s => some s
  | Node.cdata s => some s
  | Node.pi s => some s
  | _ => none

/-! ### Concrete example documents -/

/-- The document after allocating one element named `root` in a fresh
document. -/
def exDocA : Document := (newElement Document.new "root" [] []).2

/-- `exDocA` after pushing the `root` element onto the container. -/
def exDocB : Document :=
  ⟨2,
    [⟨"", [], [], none, [Node.element ⟨1⟩]⟩,
     ⟨"root", [], [], some ⟨0⟩, []⟩],
    ⟨0⟩, "1.0", false⟩

/-- The namespace example document of the source documentation:
`<parent xmlns="http://ns1" xmlns:ns1="http://ns1" xmlns:ns2="http://ns2">`
with `<child xmlns:ns="http://ns2"/>` inside. -/
def nsDoc : Document :=
  ⟨3,
    [⟨"", [], [], none, [Node.element ⟨1⟩]⟩,
     ⟨"parent", [], [("", "http://ns1"), ("ns1", "http://ns1"), ("ns2", "http://ns2")],
       some ⟨0⟩, [Node.element ⟨2⟩]⟩,
     ⟨"child", [], [("ns", "http://ns2")], some ⟨1⟩, []⟩],
    ⟨0⟩, "1.0", false⟩

/-- The shadowing example: the root declares `xmlns:ns2="http://ns1"`
and the child re-declares `xmlns:ns2="http://ns2"`. -/
def shadowDoc : Document :=
  ⟨3,
    [⟨"", [], [], none, [Node.element ⟨1⟩]⟩,
     ⟨"parent", [], [("ns2", "http://ns1")], some ⟨0⟩, [Node.element ⟨2⟩]⟩,
     ⟨"child", [], [("ns2", "http://ns2")], some ⟨1⟩, []⟩],
    ⟨0⟩, "1.0", false⟩

/-- The external-declaration example of the source documentation:
a `child` subtree containing `ns1:child` and `ns2:child` under a root
declaring `""`, `ns1` and `ns2` for `http://ns1`, the child
re-declaring `ns2`. -/
def cedDoc : Document :=
  ⟨5,
    [⟨"", [], [], none, [Node.element ⟨1⟩]⟩,
     ⟨"parent", [], [("", "http://ns1"), ("ns1", "http://ns1"), ("ns2", "http://ns1")],
       some ⟨0⟩, [Node.element ⟨2⟩]⟩,
     ⟨"child", [], [("ns2", "http://ns2")], some ⟨1⟩, [Node.element ⟨3⟩, Node.element ⟨4⟩]⟩,
     ⟨"ns1:child", [], [], some ⟨2⟩, []⟩,
     ⟨"ns2:child", [], [], some ⟨2⟩, []⟩],
    ⟨0⟩, "1.0", false⟩

/-- A small mixed-content document used for the text-content example. -/
def tcDoc : Document :=
  ⟨3,
    [⟨"", [], [], none, [Node.element ⟨1⟩]⟩,
     ⟨"core", [], [], some ⟨0⟩,
       [Node.text "A", Node.element ⟨2⟩, Node.comment "x", Node.cdata "C"]⟩,
     ⟨"p", [], [], some ⟨1⟩, [Node.text "B", Node.pi "P"]⟩],
    ⟨0⟩, "1.0", false⟩

/-- A one-element document with unsorted attributes and declarations,
used for the writer example. -/
def wrDoc : Document :=
  ⟨2,
    [⟨"", [], [], none, [Node.element ⟨1⟩]⟩,
     ⟨"t", [("b", "2"), ("a", "1")], [("z", "uz"), ("", "u0")], some ⟨0⟩, []⟩],
    ⟨0⟩, "1.0", false⟩

/-! ### Arena access lemmas -/

theorem Element.eq_iff {e f : Element} : e = f ↔ e.id = f.id := by
  cases e
  cases f
  simp

theorem dataOf_lt {doc : Document} {e : Element} {d : ElementData}
    (h : doc.dataOf e = some d) : e.id < doc.store.length :=
  (List.getElem?_eq_some.mp h).1

theorem dataOf_of_lt {doc : Document} {e : Element}
    (h : e.id < doc.store.length) : ∃ d, doc.dataOf e = some d :=
  ⟨doc.store[e.id], List.getElem?_eq_getElem h⟩

theorem length_setData (doc : Document) (x : Element) (d : ElementData) :
    (doc.setData x d).store.length = doc.store.length :=
  List.length_set ..

theorem counter_setData (doc : Document) (x : Element) (d : ElementData) :
    (doc.setData x d).counter = doc.counter := rfl

theorem dataOf_setData_self {doc : Document} {x : Element} (d : ElementData)
    (h : x.id < doc.store.length) : (doc.setData x d).dataOf x = some d := by
  simp [Document.dataOf, Document.setData, List.getElem?_set_self h]

theorem dataOf_setData_ne {doc : Document} (x : Element) (d : ElementData) {y : Element}
    (h : y.id ≠ x.id) : (doc.setData x d).dataOf y = doc.dataOf y := by
  simp [Document.dataOf, Document.setData, List.getElem?_set_ne (Ne.symm h)]

theorem parentOf_eq {doc : Document} {e : Element} {d : ElementData}
    (h : doc.dataOf e = some d) : parentOf doc e = d.parent := by
  simp [parentOf, h]

theorem childrenOf_eq {doc : Document} {e : Element} {d : ElementData}
    (h : doc.dataOf e = some d) : childrenOf doc e = d.children := by
  simp [childrenOf, h]

theorem parentOf_none {doc : Document} {e : Element}
    (h : doc.dataOf e = none) : parentOf doc e = none := by
  simp [parentOf, h]

theorem childrenOf_none {doc : Document} {e : Element}
    (h : doc.dataOf e = none) : childrenOf doc e = [] := by
  simp [childrenOf, h]

/-! ### Invariant preservation -/

theorem Inv_setChildren_sameElems {doc : Document} {self : Element} {sd : ElementData}
    {newChildren : List Node}
    (hInv : Inv doc) (hsd : doc.dataOf self = some sd)
    (hcount : ∀ e : Element,
      newChildren.count (Node.element e) = sd.children.count (Node.element e)) :
    Inv (doc.setData self { sd with children := newChildren }) := by
  have hselfLt : self.id < doc.store.length := dataOf_lt hsd
  set doc' := doc.setData self { sd with children := newChildren } with hdoc'
  have hlen : doc'.store.length = doc.store.length := length_setData ..
  have hparent : ∀ y : Element, parentOf doc' y = parentOf doc y := by
    intro y
    by_cases hy : y.id = self.id
    · have hy' : y = self := Element.eq_iff.mpr hy
      subst hy'
      rw [parentOf_eq (dataOf_setData_self _ hselfLt), parentOf_eq hsd]
    · rw [parentOf, dataOf_setData_ne _ _ hy, ← parentOf]
  have hchild : ∀ p : Element, ∀ e : Element,
      (childrenOf doc' p).count (Node.element e) =
        (childrenOf doc p).count (Node.element e) := by
    intro p e
    by_cases hp : p.id = self.id
    · have hp' : p = self := Element.eq_iff.mpr hp
      subst hp'
      rw [childrenOf_eq (dataOf_setData_self _ hselfLt), childrenOf_eq hsd]
      exact hcount e
    · rw [childrenOf, dataOf_setData_ne _ _ hp, ← childrenOf]
  refine ⟨?_, ?_, ?_⟩
  · rw [hlen]
    exact hInv.counter_eq
  · intro e p hep
    rw [hparent] at hep
    obtain ⟨h1, h2⟩ := hInv.parent_count e p hep
    exact ⟨hlen ▸ h1, (hchild p e).trans h2⟩
  · intro p e hmem
    have : 0 < (childrenOf doc p).count (Node.element e) := by
      rw [← hchild]
      exact List.count_pos_iff_mem.mpr hmem
    obtain ⟨h1, h2⟩ := hInv.child_parent p e (List.count_pos_iff_mem.mp this)
    exact ⟨hlen ▸ h1, (hparent e).trans h2⟩

theorem Inv_attach {doc : Document} {elem self : Element} {ed sd : ElementData}
    {newChildren : List Node}
    (hInv : Inv doc)
    (hed : doc.dataOf elem = some ed) (hpar : ed.parent = none)
    (hsd : (doc.setData elem { ed with parent := some self }).dataOf self = some sd)
    (hcount : ∀ m : Node, newChildren.count m =
      sd.children.count m + (if m = Node.element elem then 1 else 0)) :
    Inv ((doc.setData elem { ed with parent := some self }).setData self
      { sd with children := newChildren }) := by
  have helemLt : elem.id < doc.store.length := dataOf_lt hed
  have hselfLt : self.id < doc.store.length := by
    have := dataOf_lt hsd
    rwa [length_setData] at this
  set doc1 := doc.setData elem { ed with parent := some self } with hdoc1
  set doc2 := doc1.setData self { sd with children := newChildren } with hdoc2
  have hlen1 : doc1.store.length = doc.store.length := length_setData ..
  have hlen : doc2.store.length = doc.store.length := by
    rw [hdoc2, length_setData, hlen1]
  -- the record `self` holds in `doc1`
  have hsd_children : sd.children = childrenOf doc self := by
    by_cases hse : self.id = elem.id
    · have hse' : self = elem := Element.eq_iff.mpr hse
      subst hse'
      have : doc1.dataOf self = some { ed with parent := some self } :=
        dataOf_setData_self _ helemLt
      rw [hsd] at this
      rw [Option.some.injEq] at this
      rw [this, childrenOf_eq hed]
    · have : doc1.dataOf self = doc.dataOf self := dataOf_setData_ne _ _ hse
      rw [hsd] at this
      rw [childrenOf_eq this.symm]
  have hsd_parent : sd.parent = if self = elem then some self else parentOf doc self := by
    by_cases hse : self.id = elem.id
    · have hse' : self = elem := Element.eq_iff.mpr hse
      subst hse'
      have : doc1.dataOf self = some { ed with parent := some self } :=
        dataOf_setData_self _ helemLt
      rw [hsd] at this
      rw [Option.some.injEq] at this
      rw [this]
      simp
    · have hne : ¬self = elem := fun h => hse (by rw [h])
      have : doc1.dataOf self = doc.dataOf self := dataOf_setData_ne _ _ hse
      rw [hsd] at this
      rw [parentOf_eq this.symm, if_neg hne]
  -- pointwise views of doc2
  have hview_parent : ∀ y : Element,
      parentOf doc2 y = if y = elem then some self else parentOf doc y := by
    intro y
    by_cases hys : y.id = self.id
    · have hys' : y = self := Element.eq_iff.mpr hys
      subst hys'
      rw [parentOf_eq (dataOf_setData_self _ (hlen1 ▸ hselfLt))]
      show sd.parent = _
      rw [hsd_parent]
    · have h1 : doc2.dataOf y = doc1.dataOf y := dataOf_setData_ne _ _ hys
      by_cases hye : y.id = elem.id
      · have hye' : y = elem := Element.eq_iff.mpr hye
        subst hye'
        rw [if_pos rfl, parentOf, h1, hdoc1, dataOf_setData_self _ helemLt]
      · have hne : ¬y = elem := fun h => hye (by rw [h])
        rw [if_neg hne, parentOf, h1, hdoc1, dataOf_setData_ne _ _ hye, ← parentOf]
  have hview_children : ∀ p : Element,
      childrenOf doc2 p =
        if p = self then newChildren else childrenOf doc p := by
    intro p
    by_cases hps : p.id = self.id
    · have hps' : p = self := Element.eq_iff.mpr hps
      subst hps'
      rw [if_pos rfl, childrenOf_eq (dataOf_setData_self _ (hlen1 ▸ hselfLt))]
    · have hne : ¬p = self := fun h => hps (by rw [h])
      rw [if_neg hne]
      have h1 : doc2.dataOf p = doc1.dataOf p := dataOf_setData_ne _ _ hps
      by_cases hpe : p.id = elem.id
      · have hpe' : p = elem := Element.eq_iff.mpr hpe
        subst hpe'
        rw [childrenOf, h1, hdoc1, dataOf_setData_self _ helemLt]
        show ed.children = _
        rw [childrenOf_eq hed]
      · rw [childrenOf, h1, hdoc1, dataOf_setData_ne _ _ hpe, ← childrenOf]
  -- elem is not among the old children of self
  have helem_not_old : Node.element elem ∉ childrenOf doc self := by
    intro hmem
    have := (hInv.child_parent self elem hmem).2
    rw [parentOf_eq hed, hpar] at this
    exact Option.noConfusion this
  have hcount_old : (childrenOf doc self).count (Node.element elem) = 0 :=
    List.count_eq_zero.mpr helem_not_old
  refine ⟨?_, ?_, ?_⟩
  · rw [hlen]
    show doc.counter = _
    exact hInv.counter_eq
  · -- parent_count
    intro y p hyp
    rw [hview_parent] at hyp
    by_cases hye : y = elem
    · subst hye
      rw [if_pos rfl, Option.some.injEq] at hyp
      subst hyp
      refine ⟨hlen ▸ hselfLt, ?_⟩
      rw [hview_children, if_pos rfl, hcount (Node.element y), hsd_children,
        if_pos rfl, hcount_old]
    · rw [if_neg hye] at hyp
      obtain ⟨h1, h2⟩ := hInv.parent_count y p hyp
      refine ⟨hlen ▸ h1, ?_⟩
      rw [hview_children]
      by_cases hps : p = self
      · subst hps
        rw [if_pos rfl, hcount (Node.element y), hsd_children,
          if_neg (by simp [hye])]
        omega
      · rw [if_neg hps]
        exact h2
  · -- child_parent
    intro p y hmem
    rw [hview_children] at hmem
    by_cases hps : p = self
    · rw [if_pos hps] at hmem
      have hcnt : 0 < newChildren.count (Node.element y) :=
        List.count_pos_iff_mem.mpr hmem
      rw [hcount] at hcnt
      by_cases hye : y = elem
      · subst hye
        refine ⟨hlen ▸ helemLt, ?_⟩
        rw [hview_parent, if_pos rfl, hps]
      · have hold : Node.element y ∈ sd.children := by
          rw [if_neg (by simp [hye])] at hcnt
          simpa using List.count_pos_iff_mem.mp (by omega)
        rw [hsd_children] at hold
        obtain ⟨h1, h2⟩ := hInv.child_parent self y hold
        refine ⟨hlen ▸ h1, ?_⟩
        rw [hview_parent, if_neg hye, hps]
        exact h2
    · rw [if_neg hps] at hmem
      obtain ⟨h1, h2⟩ := hInv.child_parent p y hmem
      by_cases hye : y = elem
      · subst hye
        rw [parentOf_eq hed, hpar] at h2
        exact Option.noConfusion h2
      · exact ⟨hlen ▸ h1, by rw [hview_parent, if_neg hye]; exact h2⟩

theorem Inv_detachElem {doc : Document} {self elem : Element} {sd ed1 : ElementData}
    {rest : List Node}
    (hInv : Inv doc)
    (hsd : doc.dataOf self = some sd)
    (hcount : ∀ m : Node, sd.children.count m =
      rest.count m + (if m = Node.element elem then 1 else 0))
    (hed1 : (doc.setData self { sd with children := rest }).dataOf elem = some ed1) :
    Inv ((doc.setData self { sd with children := rest }).setData elem
      { ed1 with parent := none }) := by
  have hselfLt : self.id < doc.store.length := dataOf_lt hsd
  have helemLt : elem.id < doc.store.length := by
    have := dataOf_lt hed1
    rwa [length_setData] at this
  set doc1 := doc.setData self { sd with children := rest } with hdoc1
  set doc2 := doc1.setData elem { ed1 with parent := none } with hdoc2
  have hlen1 : doc1.store.length = doc.store.length := length_setData ..
  have hlen : doc2.store.length = doc.store.length := by
    rw [hdoc2, length_setData, hlen1]
  have hed1_cases : (elem = self ∧ ed1 = { sd with children := rest }) ∨
      (¬elem = self ∧ doc.dataOf elem = some ed1) := by
    by_cases h : elem.id = self.id
    · left
      have h' : elem = self := Element.eq_iff.mpr h
      refine ⟨h', ?_⟩
      have hx : doc1.dataOf self = some { sd with children := rest } :=
        dataOf_setData_self _ hselfLt
      rw [h'] at hed1
      rw [hed1] at hx
      exact Option.some_inj.mp hx
    · right
      refine ⟨fun hh => h (by rw [hh]), ?_⟩
      rw [← hed1, hdoc1, dataOf_setData_ne _ _ h]
  -- old facts about elem
  have hchildren_self : childrenOf doc self = sd.children := childrenOf_eq hsd
  have helem_mem : Node.element elem ∈ sd.children := by
    have := hcount (Node.element elem)
    rw [if_pos rfl] at this
    exact List.count_pos_iff_mem.mp (by omega)
  have hpar_elem : parentOf doc elem = some self := by
    have := hInv.child_parent self elem (by rw [hchildren_self]; exact helem_mem)
    exact this.2
  have hcnt1 : sd.children.count (Node.element elem) = 1 := by
    have := (hInv.parent_count elem self hpar_elem).2
    rwa [hchildren_self] at this
  have hrest0 : rest.count (Node.element elem) = 0 := by
    have := hcount (Node.element elem)
    rw [if_pos rfl, hcnt1] at this
    omega
  -- pointwise views of doc2
  have hview_parent : ∀ y : Element,
      parentOf doc2 y = if y = elem then none else parentOf doc y := by
    intro y
    by_cases hye : y.id = elem.id
    · have hye' : y = elem := Element.eq_iff.mpr hye
      subst hye'
      rw [if_pos rfl, parentOf_eq (dataOf_setData_self _ (hlen1 ▸ helemLt))]
    · have hne : ¬y = elem := fun h => hye (by rw [h])
      rw [if_neg hne]
      have h1 : doc2.dataOf y = doc1.dataOf y := dataOf_setData_ne _ _ hye
      by_cases hys : y.id = self.id
      · have hys' : y = self := Element.eq_iff.mpr hys
        subst hys'
        rw [parentOf, h1, hdoc1, dataOf_setData_self _ hselfLt]
        show sd.parent = _
        rw [parentOf_eq hsd]
      · rw [parentOf, h1, hdoc1, dataOf_setData_ne _ _ hys, ← parentOf]
  have hview_children : ∀ p : Element,
      childrenOf doc2 p = if p = self then rest else childrenOf doc p := by
    intro p
    by_cases hpe : p.id = elem.id
    · have hpe' : p = elem := Element.eq_iff.mpr hpe
      subst hpe'
      rw [childrenOf_eq (dataOf_setData_self _ (hlen1 ▸ helemLt))]
      show ed1.children = _
      rcases hed1_cases with ⟨hps, hd⟩ | ⟨hps, hd⟩
      · rw [if_pos hps, hd]
      · rw [if_neg hps, childrenOf_eq hd]
    · have h1 : doc2.dataOf p = doc1.dataOf p := dataOf_setData_ne _ _ hpe
      by_cases hps : p.id = self.id
      · have hps' : p = self := Element.eq_iff.mpr hps
        subst hps'
        rw [if_pos rfl, childrenOf, h1, hdoc1, dataOf_setData_self _ hselfLt]
      · have hne : ¬p = self := fun h => hps (by rw [h])
        rw [if_neg hne, childrenOf, h1, hdoc1, dataOf_setData_ne _ _ hps, ← childrenOf]
  refine ⟨?_, ?_, ?_⟩
  · rw [hlen]
    show doc.counter = _
    exact hInv.counter_eq
  · -- parent_count
    intro y p hyp
    rw [hview_parent] at hyp
    by_cases hye : y = elem
    · rw [if_pos hye] at hyp
      exact Option.noConfusion hyp
    · rw [if_neg hye] at hyp
      obtain ⟨h1, h2⟩ := hInv.parent_count y p hyp
      refine ⟨hlen ▸ h1, ?_⟩
      rw [hview_children]
      by_cases hps : p = self
      · subst hps
        rw [if_pos rfl]
        have hcnty := hcount (Node.element y)
        rw [if_neg (by simp [hye])] at hcnty
        rw [hchildren_self] at h2
        omega
      · rw [if_neg hps]
        exact h2
  · -- child_parent
    intro p y hmem
    rw [hview_children] at hmem
    by_cases hps : p = self
    · rw [if_pos hps] at hmem
      have hpos : 0 < rest.count (Node.element y) := List.count_pos_iff_mem.mpr hmem
      have hye : ¬y = elem := by
        intro h
        rw [h, hrest0] at hpos
        omega
      have hold : Node.element y ∈ sd.children := by
        have := hcount (Node.element y)
        rw [if_neg (by simp [hye])] at this
        exact List.count_pos_iff_mem.mp (by omega)
      obtain ⟨h1, h2⟩ := hInv.child_parent self y (by rw [hchildren_self]; exact hold)
      refine ⟨hlen ▸ h1, ?_⟩
      rw [hview_parent, if_neg hye, hps]
      exact h2
    · rw [if_neg hps] at hmem
      obtain ⟨h1, h2⟩ := hInv.child_parent p y hmem
      have hye : ¬y = elem := by
        intro h
        rw [h, hpar_elem, Option.some.injEq] at h2
        exact hps h2.symm
      refine ⟨hlen ▸ h1, ?_⟩
      rw [hview_parent, if_neg hye]
      exact h2

theorem some_pair_eq {α β : Type} {a r : α} {b d : β}
    (h : (some (a, b) : Option (α × β)) = some (r, d)) : r = a ∧ d = b := by
  rw [Option.some_inj, Prod.mk.injEq] at h
  exact ⟨h.1.symm, h.2.symm⟩

theorem insertAt_count {i : Nat} {n : Node} {l l' : List Node}
    (h : insertAt i n l = some l') :
    ∀ m : Node, l'.count m = l.count m + (if m = n then 1 else 0) := by
  induction i generalizing l l' with
  | zero =>
    rw [insertAt, Option.some_inj] at h
    subst h
    intro m
    rw [List.count_cons]
    by_cases hm : m = n
    · subst hm
      simp
    · simp [hm, Ne.symm hm]
  | succ i ih =>
    cases l with
    | nil => rw [insertAt] at h; exact Option.noConfusion h
    | cons x xs =>
      rw [insertAt] at h
      cases hr : insertAt i n xs with
      | none => rw [hr] at h; exact Option.noConfusion h
      | some ys =>
        rw [hr] at h
        rw [Option.map_some', Option.some_inj] at h
        subst h
        intro m
        rw [List.count_cons, List.count_cons, ih hr m]
        omega

theorem insertAt_of_le {i : Nat} (n : Node) {l : List Node}
    (h : i ≤ l.length) : ∃ l', insertAt i n l = some l' := by
  induction i generalizing l with
  | zero => exact ⟨n :: l, rfl⟩
  | succ i ih =>
    cases l with
    | nil => exact absurd h (by simp)
    | cons x xs =>
      obtain ⟨l', hl'⟩ := ih (Nat.le_of_succ_le_succ h)
      exact ⟨x :: l', by rw [insertAt, hl', Option.map_some']⟩

theorem removeAt_count {i : Nat} {l : List Node} {n : Node} {r : List Node}
    (h : removeAt i l = some (n, r)) :
    ∀ m : Node, l.count m = r.count m + (if m = n then 1 else 0) := by
  induction i generalizing l r with
  | zero =>
    cases l with
    | nil => exact Option.noConfusion h
    | cons x xs =>
      rw [removeAt] at h
      obtain ⟨hn, hr⟩ := some_pair_eq h
      subst hn
      subst hr
      intro m
      rw [List.count_cons]
      by_cases hm : m = n
      · subst hm
        simp
      · simp [hm, Ne.symm hm]
  | succ i ih =>
    cases l with
    | nil => exact Option.noConfusion h
    | cons x xs =>
      rw [removeAt] at h
      cases hr : removeAt i xs with
      | none => rw [hr] at h; exact Option.noConfusion h
      | some pr =>
        obtain ⟨n', r'⟩ := pr
        rw [hr] at h
        simp only [Option.map_some', Option.some_inj, Prod.mk.injEq] at h
        obtain ⟨hn, hrr⟩ := h
        subst hn
        subst hrr
        intro m
        rw [List.count_cons, List.count_cons, ih hr m]
        omega

theorem removeAt_none {i : Nat} {l : List Node} (h : l.length ≤ i) :
    removeAt i l = none := by
  induction i generalizing l with
  | zero =>
    cases l with
    | nil => rfl
    | cons x xs => exact absurd h (by simp)
  | succ i ih =>
    cases l with
    | nil => rfl
    | cons x xs => rw [removeAt, ih (Nat.le_of_succ_le_succ h)]; rfl

theorem removeAt_of_lt {i : Nat} {l : List Node} (h : i < l.length) :
    ∃ n r, removeAt i l = some (n, r) := by
  induction i generalizing l with
  | zero =>
    cases l with
    | nil => exact absurd h (by simp)
    | cons x xs => exact ⟨x, xs, rfl⟩
  | succ i ih =>
    cases l with
    | nil => exact absurd h (by simp)
    | cons x xs =>
      obtain ⟨n, r, hr⟩ := ih (Nat.lt_of_succ_lt_succ h)
      exact ⟨n, x :: r, by rw [removeAt, hr, Option.map_some']⟩

theorem getLast?_count {l : List Node} {n : Node} (h : l.getLast? = some n) :
    ∀ m : Node, l.count m = l.dropLast.count m + (if m = n then 1 else 0) := by
  intro m
  conv_lhs => rw [← List.dropLast_append_getLast? n h]
  rw [List.count_append, List.count_singleton]
  by_cases hm : m = n
  · subst hm
    simp
  · simp [hm, Ne.symm hm]

/-! ### Characterizations of the mutation operations -/

theorem pushChild_container (doc : Document) (self : Element) {elem : Element}
    (hc : elem.isContainer) :
    pushChild doc self (Node.element elem) =
      some (Except.error Error.containerCannotMove, doc) := by
  simp [pushChild, hc]

theorem pushChild_hasParent {doc : Document} {elem : Element} {ed : ElementData}
    (self : Element) (hc : ¬elem.isContainer) (hed : doc.dataOf elem = some ed)
    (hp : ed.parent.isSome) :
    pushChild doc self (Node.element elem) =
      some (Except.error Error.hasAParent, doc) := by
  simp [pushChild, hc, hed, hp]

theorem pushChild_elem_ok {doc : Document} {elem self : Element} {ed sd : ElementData}
    (hc : ¬elem.isContainer) (hed : doc.dataOf elem = some ed) (hp : ed.parent = none)
    (hsd : (doc.setData elem { ed with parent := some self }).dataOf self = some sd) :
    pushChild doc self (Node.element elem) =
      some (Except.ok (), (doc.setData elem { ed with parent := some self }).setData self
        { sd with children := sd.children ++ [Node.element elem] }) := by
  simp [pushChild, hc, hed, hp, hsd]

theorem pushChild_leaf {doc : Document} {self : Element} {sd : ElementData} {node : Node}
    (hne : node.asElement = none) (hsd : doc.dataOf self = some sd) :
    pushChild doc self node =
      some (Except.ok (), doc.setData self { sd with children := sd.children ++ [node] }) := by
  cases node <;> simp_all [pushChild, Node.asElement]

theorem insertChild_container (doc : Document) (self : Element) (index : Nat)
    {elem : Element} (hc : elem.isContainer) :
    insertChild doc self index (Node.element elem) =
      some (Except.error Error.containerCannotMove, doc) := by
  simp [insertChild, hc]

theorem insertChild_hasParent {doc : Document} {elem : Element} {ed : ElementData}
    (self : Element) (index : Nat) (hc : ¬elem.isContainer)
    (hed : doc.dataOf elem = some ed) (hp : ed.parent.isSome) :
    insertChild doc self index (Node.element elem) =
      some (Except.error Error.hasAParent, doc) := by
  simp [insertChild, hc, hed, hp]

theorem insertChild_elem_ok {doc : Document} {elem self : Element} {ed sd : ElementData}
    {index : Nat} {l : List Node}
    (hc : ¬elem.isContainer) (hed : doc.dataOf elem = some ed) (hp : ed.parent = none)
    (hsd : (doc.setData elem { ed with parent := some self }).dataOf self = some sd)
    (hl : insertAt index (Node.element elem) sd.children = some l) :
    insertChild doc self index (Node.element elem) =
      some (Except.ok (), (doc.setData elem { ed with parent := some self }).setData self
        { sd with children := l }) := by
  simp [insertChild, hc, hed, hp, hsd, hl]

theorem insertChild_leaf {doc : Document} {self : Element} {sd : ElementData}
    {index : Nat} {node : Node} {l : List Node}
    (hne : node.asElement = none) (hsd : doc.dataOf self = some sd)
    (hl : insertAt index node sd.children = some l) :
    insertChild doc self index node =
      some (Except.ok (), doc.setData self { sd with children := l }) := by
  cases node <;> simp_all [insertChild, Node.asElement]

theorem removeChild_leaf {doc : Document} {self : Element} {sd : ElementData}
    {index : Nat} {node : Node} {rest : List Node}
    (hsd : doc.dataOf self = some sd)
    (hra : removeAt index sd.children = some (node, rest))
    (hne : node.asElement = none) :
    removeChild doc self index =
      some (node, doc.setData self { sd with children := rest }) := by
  cases node <;> simp_all [removeChild, Node.asElement]

theorem removeChild_elem {doc : Document} {self elem : Element} {sd ed1 : ElementData}
    {index : Nat} {rest : List Node}
    (hsd : doc.dataOf self = some sd)
    (hra : removeAt index sd.children = some (Node.element elem, rest))
    (hed1 : (doc.setData self { sd with children := rest }).dataOf elem = some ed1) :
    removeChild doc self index =
      some (Node.element elem, (doc.setData self { sd with children := rest }).setData elem
        { ed1 with parent := none }) := by
  simp [removeChild, hsd, hra, hed1]

theorem removeChild_oor {doc : Document} {self : Element} {sd : ElementData}
    {index : Nat}
    (hsd : doc.dataOf self = some sd) (hi : sd.children.length ≤ index) :
    removeChild doc self index = none := by
  simp [removeChild, hsd, removeAt_none hi]

theorem popChild_empty {doc : Document} {self : Element} {sd : ElementData}
    (hsd : doc.dataOf self = some sd) (hc : sd.children = []) :
    popChild doc self = some (none, doc) := by
  simp [popChild, hsd, hc]

theorem popChild_leaf {doc : Document} {self : Element} {sd : ElementData} {node : Node}
    (hsd : doc.dataOf self = some sd)
    (hl : sd.children.getLast? = some node)
    (hne : node.asElement = none) :
    popChild doc self =
      some (some node, doc.setData self { sd with children := sd.children.dropLast }) := by
  cases node <;> simp_all [popChild, Node.asElement]

theorem popChild_elem {doc : Document} {self elem : Element} {sd ed1 : ElementData}
    (hsd : doc.dataOf self = some sd)
    (hl : sd.children.getLast? = some (Node.element elem))
    (hed1 : (doc.setData self { sd with children := sd.children.dropLast }).dataOf elem =
      some ed1) :
    popChild doc self =
      some (some (Node.element elem),
        (doc.setData self { sd with children := sd.children.dropLast }).setData elem
          { ed1 with parent := none }) := by
  simp [popChild, hsd, hl, hed1]

theorem detatch_container (doc : Document) {self : Element} (hc : self.isContainer) :
    detatch doc self = some (Except.error Error.containerCannotMove, doc) := by
  simp [detatch, hc]

theorem detatch_noParent {doc : Document} {self : Element} {sd : ElementData}
    (hc : ¬self.isContainer) (hsd : doc.dataOf self = some sd) (hp : sd.parent = none) :
    detatch doc self = some (Except.ok (), doc) := by
  simp [detatch, hc, hsd, hp]

theorem detatch_parent {doc : Document} {self parent : Element} {sd pd : ElementData}
    {pos : Nat} {node : Node} {doc1 : Document}
    (hc : ¬self.isContainer) (hsd : doc.dataOf self = some sd)
    (hp : sd.parent = some parent) (hpd : doc.dataOf parent = some pd)
    (hfind : pd.children.findIdx? (fun n => n.asElement = some self) = some pos)
    (hrc : removeChild doc parent pos = some (node, doc1)) :
    detatch doc self = some (Except.ok (), doc1) := by
  simp [detatch, hc, hsd, hp, hpd, hfind, hrc]

/-! ### Invariant preservation for each operation -/

theorem Inv_pushChild {doc : Document} {self : Element} {node : Node}
    {r : Except Error Unit} {doc' : Document}
    (hInv : Inv doc) (h : pushChild doc self node = some (r, doc')) : Inv doc' := by
  have append_count : ∀ (l : List Node) (n m : Node),
      (l ++ [n]).count m = l.count m + (if m = n then 1 else 0) := by
    intro l n m
    rw [List.count_append, List.count_singleton]
    by_cases hm : m = n
    · subst hm; simp
    · simp [hm, Ne.symm hm]
  cases node with
  | element elem =>
    by_cases hc : elem.isContainer
    · rw [pushChild_container doc self hc] at h
      obtain ⟨-, hd⟩ := some_pair_eq h
      subst hd
      exact hInv
    · cases hed : doc.dataOf elem with
      | none =>
        rw [show pushChild doc self (Node.element elem) = none by
          simp [pushChild, hc, hed]] at h
        exact Option.noConfusion h
      | some ed =>
        cases hp : ed.parent with
        | some q =>
          rw [pushChild_hasParent self hc hed (by simp [hp])] at h
          obtain ⟨-, hd⟩ := some_pair_eq h
          subst hd
          exact hInv
        | none =>
          cases hsd : (doc.setData elem { ed with parent := some self }).dataOf self with
          | none =>
            rw [show pushChild doc self (Node.element elem) = none by
              simp [pushChild, hc, hed, hp, hsd]] at h
            exact Option.noConfusion h
          | some sd =>
            rw [pushChild_elem_ok hc hed hp hsd] at h
            obtain ⟨-, hd⟩ := some_pair_eq h
            subst hd
            exact Inv_attach hInv hed hp hsd
              (fun m => append_count sd.children (Node.element elem) m)
  | text s =>
    cases hsd : doc.dataOf self with
    | none =>
      rw [show pushChild doc self (Node.text s) = none by simp [pushChild, hsd]] at h
      exact Option.noConfusion h
    | some sd =>
      rw [pushChild_leaf (by rfl) hsd] at h
      obtain ⟨-, hd⟩ := some_pair_eq h
      subst hd
      exact Inv_setChildren_sameElems hInv hsd
        (fun e => by rw [append_count]; simp)
  | comment s =>
    cases hsd : doc.dataOf self with
    | none =>
      rw [show pushChild doc self (Node.comment s) = none by simp [pushChild, hsd]] at h
      exact Option.noConfusion h
    | some sd =>
      rw [pushChild_leaf (by rfl) hsd] at h
      obtain ⟨-, hd⟩ := some_pair_eq h
      subst hd
      exact Inv_setChildren_sameElems hInv hsd
        (fun e => by rw [append_count]; simp)
  | cdata s =>
    cases hsd : doc.dataOf self with
    | none =>
      rw [show pushChild doc self (Node.cdata s) = none by simp [pushChild, hsd]] at h
      exact Option.noConfusion h
    | some sd =>
      rw [pushChild_leaf (by rfl) hsd] at h
      obtain ⟨-, hd⟩ := some_pair_eq h
      subst hd
      exact Inv_setChildren_sameElems hInv hsd
        (fun e => by rw [append_count]; simp)
  | pi s =>
    cases hsd : doc.dataOf self with
    | none =>
      rw [show pushChild doc self (Node.pi s) = none by simp [pushChild, hsd]] at h
      exact Option.noConfusion h
    | some sd =>
      rw [pushChild_leaf (by rfl) hsd] at h
      obtain ⟨-, hd⟩ := some_pair_eq h
      subst hd
      exact Inv_setChildren_sameElems hInv hsd
        (fun e => by rw [append_count]; simp)
  | docType s =>
    cases hsd : doc.dataOf self with
    | none =>
      rw [show pushChild doc self (Node.docType s) = none by simp [pushChild, hsd]] at h
      exact Option.noConfusion h
    | some sd =>
      rw [pushChild_leaf (by rfl) hsd] at h
      obtain ⟨-, hd⟩ := some_pair_eq h
      subst hd
      exact Inv_setChildren_sameElems hInv hsd
        (fun e => by rw [append_count]; simp)

theorem Inv_insertChild {doc : Document} {self : Element} {index : Nat} {node : Node}
    {r : Except Error Unit} {doc' : Document}
    (hInv : Inv doc) (h : insertChild doc self index node = some (r, doc')) : Inv doc' := by
  cases hne : node.asElement with
  | some elem =>
    have hnode : node = Node.element elem := by
      cases node <;> simp_all [Node.asElement]
    subst hnode
    by_cases hc : elem.isContainer
    · rw [insertChild_container doc self index hc] at h
      obtain ⟨-, hd⟩ := some_pair_eq h
      subst hd
      exact hInv
    · cases hed : doc.dataOf elem with
      | none =>
        rw [show insertChild doc self index (Node.element elem) = none by
          simp [insertChild, hc, hed]] at h
        exact Option.noConfusion h
      | some ed =>
        cases hp : ed.parent with
        | some q =>
          rw [insertChild_hasParent self index hc hed (by simp [hp])] at h
          obtain ⟨-, hd⟩ := some_pair_eq h
          subst hd
          exact hInv
        | none =>
          cases hsd : (doc.setData elem { ed with parent := some self }).dataOf self with
          | none =>
            rw [show insertChild doc self index (Node.element elem) = none by
              simp [insertChild, hc, hed, hp, hsd]] at h
            exact Option.noConfusion h
          | some sd =>
            cases hl : insertAt index (Node.element elem) sd.children with
            | none =>
              rw [show insertChild doc self index (Node.element elem) = none by
                simp [insertChild, hc, hed, hp, hsd, hl]] at h
              exact Option.noConfusion h
            | some l =>
              rw [insertChild_elem_ok hc hed hp hsd hl] at h
              obtain ⟨-, hd⟩ := some_pair_eq h
              subst hd
              exact Inv_attach hInv hed hp hsd (insertAt_count hl)
  | none =>
    cases hsd : doc.dataOf self with
    | none =>
      rw [show insertChild doc self index node = none by
        cases node <;> simp_all [insertChild, Node.asElement]] at h
      exact Option.noConfusion h
    | some sd =>
      cases hl : insertAt index node sd.children with
      | none =>
        rw [show insertChild doc self index node = none by
          cases node <;> simp_all [insertChild, Node.asElement]] at h
        exact Option.noConfusion h
      | some l =>
        rw [insertChild_leaf hne hsd hl] at h
        obtain ⟨-, hd⟩ := some_pair_eq h
        subst hd
        refine Inv_setChildren_sameElems hInv hsd (fun e => ?_)
        rw [insertAt_count hl (Node.element e)]
        have hee : ¬Node.element e = node := by
          intro he
          rw [← he] at hne
          simp [Node.asElement] at hne
        rw [if_neg hee]
        omega

theorem Inv_removeChild {doc : Document} {self : Element} {index : Nat} {node : Node}
    {doc' : Document}
    (hInv : Inv doc) (h : removeChild doc self index = some (node, doc')) : Inv doc' := by
  cases hsd : doc.dataOf self with
  | none =>
    rw [show removeChild doc self index = none by simp [removeChild, hsd]] at h
    exact Option.noConfusion h
  | some sd =>
    cases hra : removeAt index sd.children with
    | none =>
      rw [show removeChild doc self index = none by simp [removeChild, hsd, hra]] at h
      exact Option.noConfusion h
    | some pr =>
      obtain ⟨nd, rest⟩ := pr
      cases hne : nd.asElement with
      | some elem =>
        have hnd : nd = Node.element elem := by
          cases nd <;> simp_all [Node.asElement]
        subst hnd
        cases hed1 : (doc.setData self { sd with children := rest }).dataOf elem with
        | none =>
          rw [show removeChild doc self index = none by
            simp [removeChild, hsd, hra, hed1]] at h
          exact Option.noConfusion h
        | some ed1 =>
          rw [removeChild_elem hsd hra hed1] at h
          obtain ⟨-, hd⟩ := some_pair_eq h
          subst hd
          exact Inv_detachElem hInv hsd (removeAt_count hra) hed1
      | none =>
        have hee : ∀ e : Element, ¬Node.element e = nd := by
          intro e he
          rw [← he] at hne
          simp [Node.asElement] at hne
        rw [removeChild_leaf hsd hra hne] at h
        obtain ⟨-, hd⟩ := some_pair_eq h
        subst hd
        refine Inv_setChildren_sameElems hInv hsd (fun e => ?_)
        have hcnt := removeAt_count hra (Node.element e)
        rw [if_neg (hee e)] at hcnt
        omega

theorem Inv_popChild {doc : Document} {self : Element} {r : Option Node} {doc' : Document}
    (hInv : Inv doc) (h : popChild doc self = some (r, doc')) : Inv doc' := by
  cases hsd : doc.dataOf self with
  | none =>
    rw [show popChild doc self = none by simp [popChild, hsd]] at h
    exact Option.noConfusion h
  | some sd =>
    cases hl : sd.children.getLast? with
    | none =>
      rw [popChild_empty hsd (by rwa [List.getLast?_eq_none_iff] at hl)] at h
      obtain ⟨-, hd⟩ := some_pair_eq h
      subst hd
      exact hInv
    | some nd =>
      cases hne : nd.asElement with
      | some elem =>
        have hnd : nd = Node.element elem := by
          cases nd <;> simp_all [Node.asElement]
        subst hnd
        cases hed1 : (doc.setData self
            { sd with children := sd.children.dropLast }).dataOf elem with
        | none =>
          rw [show popChild doc self = none by simp [popChild, hsd, hl, hed1]] at h
          exact Option.noConfusion h
        | some ed1 =>
          rw [popChild_elem hsd hl hed1] at h
          obtain ⟨-, hd⟩ := some_pair_eq h
          subst hd
          exact Inv_detachElem hInv hsd (getLast?_count hl) hed1
      | none =>
        have hee : ∀ e : Element, ¬Node.element e = nd := by
          intro e he
          rw [← he] at hne
          simp [Node.asElement] at hne
        rw [popChild_leaf hsd hl hne] at h
        obtain ⟨-, hd⟩ := some_pair_eq h
        subst hd
        refine Inv_setChildren_sameElems hInv hsd (fun e => ?_)
        have hcnt := getLast?_count hl (Node.element e)
        rw [if_neg (hee e)] at hcnt
        omega

theorem Inv_clearLoop {self : Element} (k : Nat) :
    ∀ {doc : Document} {rs : List Node} {doc' : Document},
      Inv doc → clearLoop self k doc = some (rs, doc') → Inv doc' := by
  induction k with
  | zero =>
    intro doc rs doc' hInv h
    rw [clearLoop] at h
    obtain ⟨-, hd⟩ := some_pair_eq h
    subst hd
    exact hInv
  | succ k ih =>
    intro doc rs doc' hInv h
    rw [clearLoop] at h
    split at h
    · exact Option.noConfusion h
    · next nd doc1 hrc =>
      split at h
      · exact Option.noConfusion h
      · next rest doc2 hcl =>
        obtain ⟨-, hd⟩ := some_pair_eq h
        subst hd
        exact ih (Inv_removeChild hInv hrc) hcl

theorem Inv_clearChildren {doc : Document} {self : Element} {rs : List Node}
    {doc' : Document}
    (hInv : Inv doc) (h : clearChildren doc self = some (rs, doc')) : Inv doc' := by
  rw [clearChildren] at h
  cases hsd : doc.dataOf self with
  | none => rw [hsd] at h; exact Option.noConfusion h
  | some sd =>
    rw [hsd] at h
    exact Inv_clearLoop _ hInv h

theorem Inv_detatch {doc : Document} {self : Element} {r : Except Error Unit}
    {doc' : Document}
    (hInv : Inv doc) (h : detatch doc self = some (r, doc')) : Inv doc' := by
  by_cases hc : self.isContainer
  · rw [detatch_container doc hc] at h
    obtain ⟨-, hd⟩ := some_pair_eq h
    subst hd
    exact hInv
  · cases hsd : doc.dataOf self with
    | none =>
      rw [show detatch doc self = none by simp [detatch, hc, hsd]] at h
      exact Option.noConfusion h
    | some sd =>
      cases hp : sd.parent with
      | none =>
        rw [detatch_noParent hc hsd hp] at h
        obtain ⟨-, hd⟩ := some_pair_eq h
        subst hd
        exact hInv
      | some parent =>
        cases hpd : doc.dataOf parent with
        | none =>
          rw [show detatch doc self = none by simp [detatch, hc, hsd, hp, hpd]] at h
          exact Option.noConfusion h
        | some pd =>
          cases hfind : pd.children.findIdx? (fun n => n.asElement = some self) with
          | none =>
            rw [show detatch doc self = none by
              simp [detatch, hc, hsd, hp, hpd, hfind]] at h
            exact Option.noConfusion h
          | some pos =>
            cases hrc : removeChild doc parent pos with
            | none =>
              rw [show detatch doc self = none by
                simp [detatch, hc, hsd, hp, hpd, hfind, hrc]] at h
              exact Option.noConfusion h
            | some pr =>
              obtain ⟨nd, doc1⟩ := pr
              rw [detatch_parent hc hsd hp hpd hfind hrc] at h
              obtain ⟨-, hd⟩ := some_pair_eq h
              subst hd
              exact Inv_removeChild hInv hrc

theorem Inv_new : Inv Document.new := by
  have hparent : ∀ e : Element, parentOf Document.new e = none := by
    intro e
    rcases e with ⟨i⟩
    cases i with
    | zero => rfl
    | succ n => rfl
  have hchildren : ∀ e : Element, childrenOf Document.new e = [] := by
    intro e
    rcases e with ⟨i⟩
    cases i with
    | zero => rfl
    | succ n => rfl
  refine ⟨rfl, ?_, ?_⟩
  · intro e p hep
    rw [hparent] at hep
    exact Option.noConfusion hep
  · intro p e hmem
    rw [hchildren] at hmem
    exact absurd hmem (List.not_mem_nil _)

theorem Inv_newElement {doc : Document} (hInv : Inv doc) (full_name : String)
    (attributes namespace_decls : List (String × String)) :
    Inv (newElement doc full_name attributes namespace_decls).2 := by
  set d0 : ElementData := ⟨full_name, attributes, namespace_decls, none, []⟩ with hd0
  set doc' := (newElement doc full_name attributes namespace_decls).2 with hdoc'
  have hstore : doc'.store = doc.store ++ [d0] := rfl
  have hcounter : doc'.counter = doc.counter + 1 := rfl
  have hlen : doc'.store.length = doc.store.length + 1 := by
    rw [hstore]
    simp
  have hdata_lt : ∀ y : Element, y.id < doc.store.length → doc'.dataOf y = doc.dataOf y := by
    intro y hy
    show (doc.store ++ [d0])[y.id]? = _
    rw [List.getElem?_append, if_pos hy]
    rfl
  have hdata_ge : ∀ y : Element, ¬y.id < doc.store.length →
      parentOf doc' y = none ∧ childrenOf doc' y = [] := by
    intro y hy
    by_cases hy2 : y.id = doc.store.length
    · have : doc'.dataOf y = some d0 := by
        show (doc.store ++ [d0])[y.id]? = _
        rw [List.getElem?_append_right (by omega), hy2]
        simp
      rw [parentOf_eq this, childrenOf_eq this]
      exact ⟨rfl, rfl⟩
    · have : doc'.dataOf y = none := by
        show (doc.store ++ [d0])[y.id]? = _
        apply List.getElem?_eq_none
        simp
        omega
      rw [parentOf_none this, childrenOf_none this]
      exact ⟨rfl, rfl⟩
  refine ⟨?_, ?_, ?_⟩
  · rw [hcounter, hlen, hInv.counter_eq]
  · intro e p hep
    by_cases he : e.id < doc.store.length
    · rw [parentOf, hdata_lt e he, ← parentOf] at hep
      obtain ⟨h1, h2⟩ := hInv.parent_count e p hep
      refine ⟨by omega, ?_⟩
      rw [childrenOf, hdata_lt p h1, ← childrenOf]
      exact h2
    · rw [(hdata_ge e he).1] at hep
      exact Option.noConfusion hep
  · intro p e hmem
    by_cases hp : p.id < doc.store.length
    · rw [childrenOf, hdata_lt p hp, ← childrenOf] at hmem
      obtain ⟨h1, h2⟩ := hInv.child_parent p e hmem
      refine ⟨by omega, ?_⟩
      rw [parentOf, hdata_lt e h1, ← parentOf]
      exact h2
    · rw [(hdata_ge p hp).2] at hmem
      exact absurd hmem (List.not_mem_nil _)

theorem Inv_step {d d' : Document} (h : Step d d') (hInv : Inv d) : Inv d' := by
  cases h with
  | newElem n a ns => exact Inv_newElement hInv n a ns
  | push _ _ _ hp => exact Inv_pushChild hInv hp
  | insert _ _ _ _ hp => exact Inv_insertChild hInv hp
  | remove _ _ _ _ hp => exact Inv_removeChild hInv hp
  | pop _ _ _ hp => exact Inv_popChild hInv hp
  | clear _ _ _ hp => exact Inv_clearChildren hInv hp
  | det _ _ hp => exact Inv_detatch hInv hp
  | pushRoot _ _ hp => exact Inv_pushChild hInv hp

theorem Inv_reachable {doc : Document} (h : Reachable doc) : Inv doc := by
  induction h with
  | refl => exact Inv_new
  | tail _ hstep ih => exact Inv_step hstep ih

/-- C1: in every document reachable from `Document::new` through the
mutation API, and for every element allocated in it, the parent
back-reference and the children sequences are dual: `e.parent == Some(p)`
holds exactly when `p`'s children contain `Node::Element(e)`, and then
they contain it exactly once. -/
theorem c1_parent_child_duality {doc : Document} (hreach : Reachable doc)
    (e : Element) (he : e.id < doc.store.length) (p : Element) :
    parentOf doc e = some p ↔ (childrenOf doc p).count (Node.element e) = 1 := by
  have hInv := Inv_reachable hreach
  constructor
  · intro h
    exact (hInv.parent_count e p h).2
  · intro h
    have hmem : Node.element e ∈ childrenOf doc p :=
      List.count_pos_iff_mem.mp (by omega)
    exact (hInv.child_parent p e hmem).2

/-- Witness for C1: the two-step document `exDocB` (allocate `root`,
push it onto the container) is reachable, element 1 is allocated in it,
and the duality instance holds there. -/
theorem c1_parent_child_duality_witness :
    Reachable exDocB ∧ (⟨1⟩ : Element).id < exDocB.store.length ∧
      (parentOf exDocB ⟨1⟩ = some ⟨0⟩ ↔
        (childrenOf exDocB ⟨0⟩).count (Node.element ⟨1⟩) = 1) := by
  have hstep1 : Step Document.new exDocA :=
    Step.newElem Document.new "root" [] []
  have hstep2 : Step exDocA exDocB :=
    Step.push exDocA ⟨0⟩ (Node.element ⟨1⟩) exDocB (by rfl)
  have hreach : Reachable exDocB :=
    Relation.ReflTransGen.tail
      (Relation.ReflTransGen.tail Relation.ReflTransGen.refl hstep1) hstep2
  exact ⟨hreach, by decide, c1_parent_child_duality hreach ⟨1⟩ (by decide) ⟨0⟩⟩

theorem findIdx_elem_removeAt {l : List Node} {e : Element} {pos : Nat}
    (h : l.findIdx? (fun n => n.asElement = some e) = some pos) :
    removeAt pos l = some (Node.element e, l.erase (Node.element e)) := by
  induction l generalizing pos with
  | nil => exact Option.noConfusion h
  | cons x xs ih =>
    rw [List.findIdx?_cons, List.findIdx?_succ] at h
    by_cases hp : x.asElement = some e
    · rw [if_pos (decide_eq_true hp)] at h
      have hx : x = Node.element e := by
        cases x <;> simp_all [Node.asElement]
      have hpos : pos = 0 := (Option.some_inj.mp h).symm
      subst hpos
      subst hx
      rw [removeAt, List.erase_cons_head]
    · rw [if_neg (fun hc => hp (of_decide_eq_true hc))] at h
      cases hf : xs.findIdx? (fun n => n.asElement = some e) with
      | none => rw [hf] at h; exact Option.noConfusion h
      | some j =>
        rw [hf, Option.map_some', Option.some_inj] at h
        subst h
        have hx : ¬(x == Node.element e) = true := by
          intro hc
          exact hp (by rw [eq_of_beq hc]; rfl)
        rw [removeAt, ih hf, Option.map_some', List.erase_cons_tail hx]

theorem findIdx_elem_isSome {l : List Node} {e : Element} (h : Node.element e ∈ l) :
    ∃ pos, l.findIdx? (fun n => n.asElement = some e) = some pos := by
  induction l with
  | nil => exact absurd h (List.not_mem_nil _)
  | cons x xs ih =>
    rw [List.findIdx?_cons, List.findIdx?_succ]
    by_cases hp : x.asElement = some e
    · exact ⟨0, by rw [if_pos (decide_eq_true hp)]⟩
    · have hx : ¬x = Node.element e := fun hh => hp (by rw [hh]; rfl)
      have hmem : Node.element e ∈ xs := by
        cases List.mem_cons.mp h with
        | inl h0 => exact absurd h0.symm hx
        | inr h1 => exact h1
      obtain ⟨j, hj⟩ := ih hmem
      exact ⟨j + 1,
        by rw [if_neg (fun hc => hp (of_decide_eq_true hc)), hj, Option.map_some']⟩

/-- C5: `push_child` and (index-valid) `insert_child` fail with
`ContainerCannotMove` on the container element and with `HasAParent` on
an element that already has a parent, leaving the document exactly as
before; on success they append (respectively splice in) the node and
set the pushed element's parent back-reference. -/
theorem c5_push_insert_contract :
    (∀ (doc : Document) (self elem : Element), elem.isContainer →
      pushChild doc self (Node.element elem) =
        some (Except.error Error.containerCannotMove, doc)) ∧
    (∀ (doc : Document) (self : Element) (index : Nat) (elem : Element), elem.isContainer →
      insertChild doc self index (Node.element elem) =
        some (Except.error Error.containerCannotMove, doc)) ∧
    (∀ (doc : Document) (self elem : Element) (ed : ElementData), ¬elem.isContainer →
      doc.dataOf elem = some ed → ed.parent.isSome →
      pushChild doc self (Node.element elem) =
        some (Except.error Error.hasAParent, doc)) ∧
    (∀ (doc : Document) (self : Element) (index : Nat) (elem : Element) (ed : ElementData),
      ¬elem.isContainer → doc.dataOf elem = some ed → ed.parent.isSome →
      insertChild doc self index (Node.element elem) =
        some (Except.error Error.hasAParent, doc)) ∧
    (∀ (doc : Document) (self elem : Element) (ed sd0 : ElementData), ¬elem.isContainer →
      doc.dataOf elem = some ed → ed.parent = none → doc.dataOf self = some sd0 →
      ∃ doc', pushChild doc self (Node.element elem) = some (Except.ok (), doc') ∧
        childrenOf doc' self = childrenOf doc self ++ [Node.element elem] ∧
        parentOf doc' elem = some self) ∧
    (∀ (doc : Document) (self : Element) (index : Nat) (elem : Element) (ed sd0 : ElementData),
      ¬elem.isContainer → doc.dataOf elem = some ed → ed.parent = none →
      doc.dataOf self = some sd0 → index ≤ (childrenOf doc self).length →
      ∃ doc' l, insertAt index (Node.element elem) (childrenOf doc self) = some l ∧
        insertChild doc self index (Node.element elem) = some (Except.ok (), doc') ∧
        childrenOf doc' self = l ∧ parentOf doc' elem = some self) ∧
    (∀ (doc : Document) (self : Element) (node : Node) (sd0 : ElementData),
      node.asElement = none → doc.dataOf self = some sd0 →
      pushChild doc self node = some (Except.ok (),
        doc.setData self { sd0 with children := sd0.children ++ [node] })) := by
  refine ⟨?_, ?_, ?_, ?_, ?_, ?_, ?_⟩
  · intro doc self elem hc
    exact pushChild_container doc self hc
  · intro doc self index elem hc
    exact insertChild_container doc self index hc
  · intro doc self elem ed hc hed hp
    exact pushChild_hasParent self hc hed hp
  · intro doc self index elem ed hc hed hp
    exact insertChild_hasParent self index hc hed hp
  · intro doc self elem ed sd0 hc hed hp hsd0
    have helemLt : elem.id < doc.store.length := dataOf_lt hed
    by_cases hse : self.id = elem.id
    · have hse' : self = elem := Element.eq_iff.mpr hse
      subst hse'
      have hsd1 : (doc.setData self { ed with parent := some self }).dataOf self =
          some { ed with parent := some self } := dataOf_setData_self _ helemLt
      refine ⟨_, pushChild_elem_ok hc hed hp hsd1, ?_, ?_⟩
      · rw [childrenOf_eq (dataOf_setData_self _ (by rw [length_setData]; exact helemLt)),
          childrenOf_eq hed]
      · rw [parentOf_eq (dataOf_setData_self _ (by rw [length_setData]; exact helemLt))]
    · have hne : ¬self = elem := fun hh => hse (by rw [hh])
      have hsd1 : (doc.setData elem { ed with parent := some self }).dataOf self =
          some sd0 := by rw [dataOf_setData_ne _ _ hse, hsd0]
      refine ⟨_, pushChild_elem_ok hc hed hp hsd1, ?_, ?_⟩
      · rw [childrenOf_eq (dataOf_setData_self _
          (by rw [length_setData]; exact dataOf_lt hsd0)), childrenOf_eq hsd0]
      · have h1 : ((doc.setData elem { ed with parent := some self }).setData self
            { sd0 with children := sd0.children ++ [Node.element elem] }).dataOf elem =
            some { ed with parent := some self } := by
          rw [dataOf_setData_ne _ _ (fun hh => hse hh.symm),
            dataOf_setData_self _ helemLt]
        rw [parentOf_eq h1]
  · intro doc self index elem ed sd0 hc hed hp hsd0 hidx
    obtain ⟨l, hl⟩ := insertAt_of_le (Node.element elem) hidx
    have helemLt : elem.id < doc.store.length := dataOf_lt hed
    by_cases hse : self.id = elem.id
    · have hse' : self = elem := Element.eq_iff.mpr hse
      subst hse'
      have hsd1 : (doc.setData self { ed with parent := some self }).dataOf self =
          some { ed with parent := some self } := dataOf_setData_self _ helemLt
      have hl' : insertAt index (Node.element self)
          ({ ed with parent := some self } : ElementData).children = some l := by
        show insertAt index (Node.element self) ed.children = some l
        rw [← childrenOf_eq hed]
        exact hl
      refine ⟨_, l, hl, insertChild_elem_ok hc hed hp hsd1 hl', ?_, ?_⟩
      · rw [childrenOf_eq (dataOf_setData_self _ (by rw [length_setData]; exact helemLt))]
      · rw [parentOf_eq (dataOf_setData_self _ (by rw [length_setData]; exact helemLt))]
    · have hne : ¬self = elem := fun hh => hse (by rw [hh])
      have hsd1 : (doc.setData elem { ed with parent := some self }).dataOf self =
          some sd0 := by rw [dataOf_setData_ne _ _ hse, hsd0]
      have hl' : insertAt index (Node.element elem) sd0.children = some l := by
        rw [← childrenOf_eq hsd0]
        exact hl
      refine ⟨_, l, hl, insertChild_elem_ok hc hed hp hsd1 hl', ?_, ?_⟩
      · rw [childrenOf_eq (dataOf_setData_self _
          (by rw [length_setData]; exact dataOf_lt hsd0))]
      · have h1 : ((doc.setData elem { ed with parent := some self }).setData self
            { sd0 with children := l }).dataOf elem =
            some { ed with parent := some self } := by
          rw [dataOf_setData_ne _ _ (fun hh => hse hh.symm),
            dataOf_setData_self _ helemLt]
        rw [parentOf_eq h1]
  · intro doc self node sd0 hne hsd0
    exact pushChild_leaf hne hsd0

/-- Witness for C5: the contract instantiated on concrete documents:
pushing the container errors, pushing the already-parented child of
`nsDoc` errors and leaves `nsDoc` unchanged, and pushing or inserting
the detached `root` of `exDocA` succeeds with the documented effects. -/
theorem c5_push_insert_contract_witness :
    pushChild nsDoc ⟨1⟩ (Node.element ⟨0⟩) =
      some (Except.error Error.containerCannotMove, nsDoc) ∧
    insertChild nsDoc ⟨1⟩ 0 (Node.element ⟨0⟩) =
      some (Except.error Error.containerCannotMove, nsDoc) ∧
    pushChild nsDoc ⟨0⟩ (Node.element ⟨2⟩) =
      some (Except.error Error.hasAParent, nsDoc) ∧
    insertChild nsDoc ⟨0⟩ 1 (Node.element ⟨2⟩) =
      some (Except.error Error.hasAParent, nsDoc) ∧
    (∃ doc', pushChild exDocA ⟨0⟩ (Node.element ⟨1⟩) = some (Except.ok (), doc') ∧
      childrenOf doc' ⟨0⟩ = childrenOf exDocA ⟨0⟩ ++ [Node.element ⟨1⟩] ∧
      parentOf doc' ⟨1⟩ = some ⟨0⟩) ∧
    (∃ doc' l, insertAt 0 (Node.element ⟨1⟩) (childrenOf exDocA ⟨0⟩) = some l ∧
      insertChild exDocA ⟨0⟩ 0 (Node.element ⟨1⟩) = some (Except.ok (), doc') ∧
      childrenOf doc' ⟨0⟩ = l ∧ parentOf doc' ⟨1⟩ = some ⟨0⟩) := by
  obtain ⟨h1, h2, h3, h4, h5, h6, -⟩ := c5_push_insert_contract
  refine ⟨?_, ?_, ?_, ?_, ?_, ?_⟩
  · exact h1 nsDoc ⟨1⟩ ⟨0⟩ (by decide)
  · exact h2 nsDoc ⟨1⟩ 0 ⟨0⟩ (by decide)
  · exact h3 nsDoc ⟨0⟩ ⟨2⟩ ⟨"child", [], [("ns", "http://ns2")], some ⟨1⟩, []⟩
      (by decide) (by rfl) (by decide)
  · exact h4 nsDoc ⟨0⟩ 1 ⟨2⟩ ⟨"child", [], [("ns", "http://ns2")], some ⟨1⟩, []⟩
      (by decide) (by rfl) (by decide)
  · exact h5 exDocA ⟨0⟩ ⟨1⟩ ⟨"root", [], [], none, []⟩ ⟨"", [], [], none, []⟩
      (by decide) (by rfl) (by rfl) (by rfl)
  · exact h6 exDocA ⟨0⟩ 0 ⟨1⟩ ⟨"root", [], [], none, []⟩ ⟨"", [], [], none, []⟩
      (by decide) (by rfl) (by rfl) (by rfl) (by decide)

/-- C7: `detatch` errors with `ContainerCannotMove` on the container and
changes nothing; on any other allocated element it succeeds: with no
parent it is a no-op, with a parent it removes the first identity
occurrence of the element from that parent's children and clears the
back-reference, and a second `detatch` is again successful and leaves
the document unchanged. -/
theorem c7_detatch_idempotent :
    (∀ (doc : Document) (c : Element), c.isContainer →
      detatch doc c = some (Except.error Error.containerCannotMove, doc)) ∧
    (∀ (doc : Document) (e : Element) (ed : ElementData),
      ¬e.isContainer → doc.dataOf e = some ed →
      (∀ p, ed.parent = some p → Node.element e ∈ childrenOf doc p) →
      ∃ doc', detatch doc e = some (Except.ok (), doc') ∧
        (ed.parent = none → doc' = doc) ∧
        (∀ p, ed.parent = some p →
          childrenOf doc' p = (childrenOf doc p).erase (Node.element e) ∧
          parentOf doc' e = none) ∧
        detatch doc' e = some (Except.ok (), doc')) := by
  constructor
  · intro doc c hc
    exact detatch_container doc hc
  · intro doc e ed hc hed hpmem
    cases hp : ed.parent with
    | none =>
      refine ⟨doc, detatch_noParent hc hed hp, fun _ => rfl, ?_, detatch_noParent hc hed hp⟩
      intro p hps
      exact Option.noConfusion hps
    | some parent =>
      have hmem := hpmem parent hp
      cases hpd : doc.dataOf parent with
      | none =>
        rw [childrenOf_none hpd] at hmem
        exact absurd hmem (List.not_mem_nil _)
      | some pd =>
        have hmem' : Node.element e ∈ pd.children := by
          rwa [childrenOf_eq hpd] at hmem
        obtain ⟨pos, hfind⟩ := findIdx_elem_isSome hmem'
        have hra := findIdx_elem_removeAt hfind
        have heLt : e.id < doc.store.length := dataOf_lt hed
        have hparentLt : parent.id < doc.store.length := dataOf_lt hpd
        obtain ⟨ed1, hed1⟩ := @dataOf_of_lt
          (doc.setData parent { pd with children := pd.children.erase (Node.element e) })
          e (by rw [length_setData]; exact heLt)
        have hrc : removeChild doc parent pos =
            some (Node.element e,
              (doc.setData parent
                { pd with children := pd.children.erase (Node.element e) }).setData e
                { ed1 with parent := none }) :=
          removeChild_elem hpd hra hed1
        refine ⟨_, detatch_parent hc hed hp hpd hfind hrc, ?_, ?_, ?_⟩
        · intro h0
          exact Option.noConfusion h0
        · intro p hps
          have hpp : p = parent := by
            rw [Option.some_inj] at hps
            exact hps.symm
          subst hpp
          constructor
          · rw [childrenOf_eq hpd]
            by_cases hpe : p.id = e.id
            · have hpe' : p = e := Element.eq_iff.mpr hpe
              subst hpe'
              have hx : (doc.setData p
                  { pd with children := pd.children.erase (Node.element p) }).dataOf p =
                  some { pd with children := pd.children.erase (Node.element p) } :=
                dataOf_setData_self _ hparentLt
              rw [hx, Option.some_inj] at hed1
              rw [childrenOf_eq (dataOf_setData_self _ (by rw [length_setData]; exact heLt))]
              rw [← hed1]
            · rw [childrenOf, dataOf_setData_ne _ _ hpe,
                dataOf_setData_self _ hparentLt]
          · rw [parentOf_eq (dataOf_setData_self _ (by rw [length_setData]; exact heLt))]
        · exact detatch_noParent hc
            (dataOf_setData_self _ (by rw [length_setData]; exact heLt)) rfl

/-- Witness for C7: detaching the container of `nsDoc` errors, while
detaching its `child` element removes it from `parent`'s children,
clears the back-reference and a second detach is an accepted no-op. -/
theorem c7_detatch_idempotent_witness :
    detatch nsDoc ⟨0⟩ = some (Except.error Error.containerCannotMove, nsDoc) ∧
    (∃ doc', detatch nsDoc ⟨2⟩ = some (Except.ok (), doc') ∧
      (∀ p, (some ⟨1⟩ : Option Element) = some p →
        childrenOf doc' p = (childrenOf nsDoc p).erase (Node.element ⟨2⟩) ∧
        parentOf doc' ⟨2⟩ = none) ∧
      detatch doc' ⟨2⟩ = some (Except.ok (), doc')) := by
  obtain ⟨h1, h2⟩ := c7_detatch_idempotent
  refine ⟨h1 nsDoc ⟨0⟩ (by decide), ?_⟩
  obtain ⟨doc', ha, -, hb, hc⟩ := h2 nsDoc ⟨2⟩
    ⟨"child", [], [("ns", "http://ns2")], some ⟨1⟩, []⟩ (by decide) (by rfl)
    (by intro p hps; rw [Option.some_inj] at hps; subst hps; decide)
  exact ⟨doc', ha, hb, hc⟩

/-- C10: `pop_child` on an element with no children returns `None`
without touching the document, unlike `remove_child`, which panics on
any out-of-range index; on a non-empty children sequence it removes and
returns the last child and clears an element child's back-reference. -/
theorem c10_pop_child_contract :
    (∀ (doc : Document) (e : Element) (sd : ElementData),
      doc.dataOf e = some sd → sd.children = [] →
      popChild doc e = some (none, doc)) ∧
    (∀ (doc : Document) (e : Element) (sd : ElementData) (last : Node),
      doc.dataOf e = some sd → sd.children.getLast? = some last →
      (∀ elem : Element, last = Node.element elem → elem.id < doc.store.length) →
      ∃ doc', popChild doc e = some (some last, doc') ∧
        childrenOf doc' e = sd.children.dropLast ∧
        (∀ elem : Element, last = Node.element elem → parentOf doc' elem = none)) ∧
    (∀ (doc : Document) (e : Element) (sd : ElementData) (index : Nat),
      doc.dataOf e = some sd → sd.children.length ≤ index →
      removeChild doc e index = none) := by
  refine ⟨?_, ?_, ?_⟩
  · intro doc e sd hsd hc
    exact popChild_empty hsd hc
  · intro doc e sd last hsd hl hvalid
    cases hne : last.asElement with
    | some elem =>
      have hlast : last = Node.element elem := by
        cases last <;> simp_all [Node.asElement]
      subst hlast
      have heLt : elem.id < doc.store.length := hvalid elem rfl
      obtain ⟨ed1, hed1⟩ := @dataOf_of_lt
        (doc.setData e { sd with children := sd.children.dropLast })
        elem (by rw [length_setData]; exact heLt)
      refine ⟨_, popChild_elem hsd hl hed1, ?_, ?_⟩
      · by_cases hee : elem.id = e.id
        · have hee' : elem = e := Element.eq_iff.mpr hee
          subst hee'
          have hx : (doc.setData elem { sd with children := sd.children.dropLast }).dataOf
              elem = some { sd with children := sd.children.dropLast } :=
            dataOf_setData_self _ (dataOf_lt hsd)
          rw [hx, Option.some_inj] at hed1
          rw [childrenOf_eq (dataOf_setData_self _ (by rw [length_setData]; exact heLt))]
          rw [← hed1]
        · rw [childrenOf, dataOf_setData_ne _ _ (fun hh => hee hh.symm),
            dataOf_setData_self _ (dataOf_lt hsd)]
      · intro elem2 h2
        have : elem2 = elem := by
          rw [Node.element.injEq] at h2
          exact h2.symm
        subst this
        rw [parentOf_eq (dataOf_setData_self _ (by rw [length_setData]; exact heLt))]
    | none =>
      refine ⟨_, popChild_leaf hsd hl hne, ?_, ?_⟩
      · rw [childrenOf_eq (dataOf_setData_self _ (dataOf_lt hsd))]
      · intro elem2 h2
        rw [h2] at hne
        simp [Node.asElement] at hne
  · intro doc e sd index hsd hi
    exact removeChild_oor hsd hi

/-- Witness for C10: popping the childless `child` of `nsDoc` is a
no-op returning `None`, popping `core` of `tcDoc` returns its last
child, and `remove_child` at index 0 of the childless element panics. -/
theorem c10_pop_child_contract_witness :
    popChild nsDoc ⟨2⟩ = some (none, nsDoc) ∧
    (∃ doc', popChild tcDoc ⟨1⟩ = some (some (Node.cdata "C"), doc') ∧
      childrenOf doc' ⟨1⟩ =
        ([Node.text "A", Node.element ⟨2⟩, Node.comment "x", Node.cdata "C"] :
          List Node).dropLast ∧
      (∀ elem : Element, Node.cdata "C" = Node.element elem →
        parentOf doc' elem = none)) ∧
    removeChild nsDoc ⟨2⟩ 0 = none := by
  obtain ⟨h1, h2, h3⟩ := c10_pop_child_contract
  refine ⟨?_, ?_, ?_⟩
  · exact h1 nsDoc ⟨2⟩ ⟨"child", [], [("ns", "http://ns2")], some ⟨1⟩, []⟩ (by rfl) (by rfl)
  · exact h2 tcDoc ⟨1⟩
      ⟨"core", [], [], some ⟨0⟩,
        [Node.text "A", Node.element ⟨2⟩, Node.comment "x", Node.cdata "C"]⟩
      (Node.cdata "C") (by rfl) (by rfl) (by intro elem h; cases h)
  · exact h3 nsDoc ⟨2⟩ ⟨"child", [], [("ns", "http://ns2")], some ⟨1⟩, []⟩ 0 (by rfl)
      (by decide)

/-! ### Namespace engine lemmas -/

theorem declsOf_eq {doc : Document} {e : Element} {d : ElementData}
    (h : doc.dataOf e = some d) : declsOf doc e = d.namespace_decls := by
  simp [declsOf, h]

theorem nsLookupLoop_eq_walk {doc : Document} :
    ∀ {fuel : Nat} {e : Element} {ch : List Element} (pre : String),
      parentChain doc fuel e = some ch →
      nsLookupLoop doc fuel e pre = some (specNsForPrefixWalk doc ch pre) := by
  intro fuel
  induction fuel with
  | zero => intro e ch pre h; exact Option.noConfusion h
  | succ fuel ih =>
    intro e ch pre h
    rw [parentChain] at h
    rw [nsLookupLoop]
    cases hd : doc.dataOf e with
    | none => rw [hd] at h; exact Option.noConfusion h
    | some d =>
      simp only [hd] at h ⊢
      cases hp : d.parent with
      | none =>
        simp only [hp] at h ⊢
        rw [Option.some_inj] at h
        subst h
        simp only [specNsForPrefixWalk, declsOf_eq hd]
        cases List.lookup pre d.namespace_decls with
        | none => by_cases hpre : pre = "" <;> simp [hpre]
        | some v => rfl
      | some p =>
        simp only [hp] at h ⊢
        cases hch : parentChain doc fuel p with
        | none => rw [hch] at h; exact Option.noConfusion h
        | some chp =>
          rw [hch, Option.map_some', Option.some_inj] at h
          subst h
          simp only [specNsForPrefixWalk, declsOf_eq hd]
          cases List.lookup pre d.namespace_decls with
          | none => exact ih pre hch
          | some v => rfl

/-- C4: `namespace_for_prefix` answers the two fixed prefixes without
consulting any declarations; for every other prefix it returns the URL
from the first ancestor (inclusive) whose local declarations contain
the prefix, falling back at the root to `""` for the empty prefix and
"not declared" otherwise. -/
theorem c4_namespace_for_prefix :
    (∀ (doc : Document) (fuel : Nat) (e : Element),
      namespaceForPrefix doc fuel e "xml" = some (some xmlNamespaceURI) ∧
      namespaceForPrefix doc fuel e "xmlns" = some (some xmlnsNamespaceURI)) ∧
    (∀ (doc : Document) (fuel : Nat) (e : Element) (pre : String) (ch : List Element),
      ¬pre = "xml" → ¬pre = "xmlns" →
      parentChain doc fuel e = some ch →
      namespaceForPrefix doc fuel e pre = some (specNsForPrefixWalk doc ch pre)) := by
  constructor
  · intro doc fuel e
    constructor
    · rfl
    · rfl
  · intro doc fuel e pre ch h1 h2 hch
    rw [namespaceForPrefix, if_neg h1, if_neg h2]
    exact nsLookupLoop_eq_walk pre hch

/-- Witness for C4: on `nsDoc`, the chain of `child` is explicit and
`namespace_for_prefix` matches the walk for the `ns` prefix; the fixed
prefixes resolve to the fixed URIs. -/
theorem c4_namespace_for_prefix_witness :
    (namespaceForPrefix nsDoc 5 ⟨2⟩ "xml" = some (some xmlNamespaceURI) ∧
      namespaceForPrefix nsDoc 5 ⟨2⟩ "xmlns" = some (some xmlnsNamespaceURI)) ∧
    (¬"ns" = "xml" ∧ ¬"ns" = "xmlns" ∧
      parentChain nsDoc 5 ⟨2⟩ = some [⟨2⟩, ⟨1⟩, ⟨0⟩] ∧
      namespaceForPrefix nsDoc 5 ⟨2⟩ "ns" =
        some (specNsForPrefixWalk nsDoc [⟨2⟩, ⟨1⟩, ⟨0⟩] "ns")) := by
  refine ⟨ c4_namespace_for_prefix.1 nsDoc 5 ⟨2⟩, by decide, by decide, by rfl, ?_⟩
  exact c4_namespace_for_prefix.2 nsDoc 5 ⟨2⟩ "ns" [⟨2⟩, ⟨1⟩, ⟨0⟩]
    (by decide) (by decide) (by rfl)

theorem minCandidate_fold (url : String) :
    ∀ (decls : List (String × String)) (cand : Option String),
      (cand = none →
        (List.foldl (minStep url) cand decls = none ∧
          matchingPrefixes decls url = []) ∨
        (∃ m, List.foldl (minStep url) cand decls = some m ∧
          m ∈ matchingPrefixes decls url ∧
          ∀ q ∈ matchingPrefixes decls url, strLt q m = false)) ∧
      (∀ c, cand = some c →
        ∃ m, List.foldl (minStep url) cand decls = some m ∧
          (m = c ∨ m ∈ matchingPrefixes decls url) ∧ strLt c m = false ∧
          ∀ q ∈ matchingPrefixes decls url, strLt q m = false) := by
  intro decls
  induction decls with
  | nil =>
    intro cand
    constructor
    · intro hc
      subst hc
      exact Or.inl ⟨rfl, rfl⟩
    · intro c hc
      subst hc
      exact ⟨c, rfl, Or.inl rfl, strLt_irrefl c,
        by intro q hq; exact absurd hq (List.not_mem_nil _)⟩
  | cons pv rest ih =>
    intro cand
    have hmatch : matchingPrefixes (pv :: rest) url =
        if pv.2 = url then pv.1 :: matchingPrefixes rest url
        else matchingPrefixes rest url := by
      rw [matchingPrefixes, List.filter_cons]
      by_cases hc : pv.2 = url
      · rw [if_pos (decide_eq_true hc), if_pos hc, List.map_cons]
        rfl
      · rw [if_neg (fun hb => hc (of_decide_eq_true hb)), if_neg hc]
        rfl
    by_cases hurl : pv.2 = url
    · rw [hmatch] at *
      constructor
      · intro hc
        subst hc
        have hstep : List.foldl (minStep url) none (pv :: rest) =
            List.foldl (minStep url) (some pv.1) rest := by
          rw [List.foldl_cons]
          show List.foldl (minStep url) (minStep url none pv) rest = _
          simp only [minStep]
          rw [if_pos hurl]
        obtain ⟨m, hm, hmem, hle, hmin⟩ := (ih (some pv.1)).2 pv.1 rfl
        refine Or.inr ⟨m, by rw [hstep]; exact hm, ?_, ?_⟩
        · rw [if_pos hurl]
          cases hmem with
          | inl h0 => rw [h0]; exact List.mem_cons_self _ _
          | inr h1 => exact List.mem_cons_of_mem _ h1
        · rw [if_pos hurl]
          intro q hq
          cases List.mem_cons.mp hq with
          | inl h0 => rw [h0]; exact hle
          | inr h1 => exact hmin q h1
      · intro c hc
        subst hc
        have hstep : List.foldl (minStep url) (some c) (pv :: rest) =
            List.foldl (minStep url) (some (if strLt pv.1 c then pv.1 else c)) rest := by
          rw [List.foldl_cons]
          show List.foldl (minStep url) (minStep url (some c) pv) rest = _
          simp only [minStep]
          rw [if_pos hurl]
          cases hlt : strLt pv.1 c <;> simp
        set c' := if strLt pv.1 c then pv.1 else c with hc'
        have hc'le : strLt c c' = false := by
          rw [hc']
          cases hlt : strLt pv.1 c with
          | true => rw [if_pos rfl]; exact strLt_asymm hlt
          | false => rw [if_neg (by simp)]; exact strLt_irrefl c
        have hc'pv : strLt pv.1 c' = false := by
          rw [hc']
          cases hlt : strLt pv.1 c with
          | true => rw [if_pos rfl]; exact strLt_irrefl pv.1
          | false => rw [if_neg (by simp)]; exact hlt
        obtain ⟨m, hm, hmem, hle, hmin⟩ := (ih (some c')).2 c' rfl
        have hmc : strLt c m = false := by
          cases hcm : strLt c m with
          | false => rfl
          | true =>
            have := strLt_lt_of_le hcm hle
            rw [hc'le] at this
            exact Bool.noConfusion this
        refine ⟨m, by rw [hstep]; exact hm, ?_, hmc, ?_⟩
        · rw [if_pos hurl]
          cases hmem with
          | inl h0 =>
            rw [h0, hc']
            cases hlt : strLt pv.1 c with
            | true =>
              rw [if_pos rfl]
              exact Or.inr (List.mem_cons_self _ _)
            | false =>
              rw [if_neg (by simp)]
              exact Or.inl rfl
          | inr h1 => exact Or.inr (List.mem_cons_of_mem _ h1)
        · rw [if_pos hurl]
          intro q hq
          cases List.mem_cons.mp hq with
          | inl h0 =>
            rw [h0]
            cases hpm : strLt pv.1 m with
            | false => rfl
            | true =>
              have := strLt_lt_of_le hpm hle
              rw [hc'pv] at this
              exact Bool.noConfusion this
          | inr h1 => exact hmin q h1
    · have hstep : ∀ cc : Option String, List.foldl (minStep url) cc (pv :: rest) =
          List.foldl (minStep url) cc rest := by
        intro cc
        rw [List.foldl_cons]
        show List.foldl (minStep url) (minStep url cc pv) rest = _
        simp only [minStep]
        rw [if_neg hurl]
      rw [hmatch, if_neg hurl]
      constructor
      · intro hc
        rw [hstep]
        exact (ih cand).1 hc
      · intro c hc
        rw [hstep]
        exact (ih cand).2 c hc

theorem minCandidate_none {decls : List (String × String)} {url : String}
    (h : minCandidate decls url = none) : matchingPrefixes decls url = [] := by
  rcases (minCandidate_fold url decls none).1 rfl with ⟨-, h2⟩ | ⟨m, hm, -, -⟩
  · exact h2
  · rw [minCandidate] at h
    rw [h] at hm
    exact Option.noConfusion hm

theorem minCandidate_some {decls : List (String × String)} {url : String} {m : String}
    (h : minCandidate decls url = some m) :
    m ∈ matchingPrefixes decls url ∧
      ∀ q ∈ matchingPrefixes decls url, strLt q m = false := by
  rcases (minCandidate_fold url decls none).1 rfl with ⟨h1, -⟩ | ⟨m', hm', hmem, hmin⟩
  · rw [minCandidate] at h
    rw [h] at h1
    exact Option.noConfusion h1
  · rw [minCandidate] at h
    rw [h, Option.some_inj] at hm'
    subst hm'
    exact ⟨hmem, hmin⟩

/-- C3: `closest_prefix` walks upward from the element; the first level
that declares the URL at all answers with the lexicographically
smallest prefix it declares for it, the root falls back to the empty
prefix exactly for the empty URL; with the documented example answers
on `nsDoc`. -/
theorem c3_closest_prefix :
    (∀ (doc : Document) (fuel : Nat) (e : Element) (url : String) (ch : List Element),
      parentChain doc fuel e = some ch →
      ∃ r, closestPrefix doc fuel e url = some r ∧
        (match firstDeclaring doc ch url with
         | some x => ∃ m, r = some m ∧ m ∈ matchingPrefixes (declsOf doc x) url ∧
             ∀ q ∈ matchingPrefixes (declsOf doc x) url, strLt q m = false
         | none => r = if url = "" then some "" else none)) ∧
    closestPrefix nsDoc 5 ⟨1⟩ "http://ns1" = some (some "") ∧
    closestPrefix nsDoc 5 ⟨1⟩ "http://ns2" = some (some "ns2") ∧
    closestPrefix nsDoc 5 ⟨2⟩ "http://ns2" = some (some "ns") := by
  refine ⟨?_, by decide, by decide, by decide⟩
  intro doc fuel
  induction fuel with
  | zero => intro e url ch h; exact Option.noConfusion h
  | succ fuel ih =>
    intro e url ch h
    rw [parentChain] at h
    rw [closestPrefix]
    cases hd : doc.dataOf e with
    | none => rw [hd] at h; exact Option.noConfusion h
    | some d =>
      simp only [hd] at h ⊢
      cases hmc : minCandidate d.namespace_decls url with
      | some c =>
        have hfirst : ∀ rest : List Element, firstDeclaring doc (e :: rest) url = some e := by
          intro rest
          rw [firstDeclaring]
          apply List.find?_cons_of_pos
          rw [declsOf_eq hd]
          obtain ⟨hmem, -⟩ := minCandidate_some hmc
          simp only [Bool.not_eq_true']
          rw [← Bool.not_eq_true]
          intro hb
          rw [List.isEmpty_iff] at hb
          rw [hb] at hmem
          exact List.not_mem_nil _ hmem
        cases hp : d.parent with
        | none =>
          simp only [hp] at h
          rw [Option.some_inj] at h
          subst h
          refine ⟨some c, rfl, ?_⟩
          rw [hfirst []]
          obtain ⟨hmem, hmin⟩ := minCandidate_some hmc
          exact ⟨c, rfl, by rwa [declsOf_eq hd], by rwa [declsOf_eq hd]⟩
        | some p =>
          simp only [hp] at h
          cases hch : parentChain doc fuel p with
          | none => rw [hch] at h; exact Option.noConfusion h
          | some chp =>
            rw [hch, Option.map_some', Option.some_inj] at h
            subst h
            refine ⟨some c, rfl, ?_⟩
            rw [hfirst chp]
            obtain ⟨hmem, hmin⟩ := minCandidate_some hmc
            exact ⟨c, rfl, by rwa [declsOf_eq hd], by rwa [declsOf_eq hd]⟩
      | none =>
        have hempty := minCandidate_none hmc
        have hskip : ∀ rest : List Element,
            firstDeclaring doc (e :: rest) url = firstDeclaring doc rest url := by
          intro rest
          rw [firstDeclaring, firstDeclaring]
          apply List.find?_cons_of_neg
          rw [declsOf_eq hd]
          simp [hempty]
        cases hp : d.parent with
        | none =>
          simp only [hp] at h
          rw [Option.some_inj] at h
          subst h
          refine ⟨if url = "" then some "" else none, ?_, ?_⟩
          · by_cases hu : url = "" <;> simp [hu]
          · rw [hskip []]
            rw [firstDeclaring]
            rfl
        | some p =>
          simp only [hp] at h
          cases hch : parentChain doc fuel p with
          | none => rw [hch] at h; exact Option.noConfusion h
          | some chp =>
            rw [hch, Option.map_some', Option.some_inj] at h
            subst h
            obtain ⟨r, hr, hprop⟩ := ih p url chp hch
            refine ⟨r, hr, ?_⟩
            rw [hskip chp]
            exact hprop

/-- Witness for C3: the general walk characterization instantiated on
`nsDoc`'s child chain. -/
theorem c3_closest_prefix_witness :
    parentChain nsDoc 5 ⟨2⟩ = some [⟨2⟩, ⟨1⟩, ⟨0⟩] ∧
    (∃ r, closestPrefix nsDoc 5 ⟨2⟩ "http://ns2" = some r ∧
      (match firstDeclaring nsDoc [⟨2⟩, ⟨1⟩, ⟨0⟩] "http://ns2" with
       | some x => ∃ m, r = some m ∧
           m ∈ matchingPrefixes (declsOf nsDoc x) "http://ns2" ∧
           ∀ q ∈ matchingPrefixes (declsOf nsDoc x) "http://ns2", strLt q m = false
       | none => r = if "http://ns2" = "" then some "" else none)) := by
  exact ⟨by rfl, c3_closest_prefix.1 nsDoc 5 ⟨2⟩ "http://ns2" [⟨2⟩, ⟨1⟩, ⟨0⟩] (by rfl)⟩

theorem mem_declKeysFor {x : String} {decls : List (String × String)} {url : String}
    (h : x ∈ declKeysFor decls url) : x ∈ decls.map Prod.fst := by
  rw [declKeysFor, List.mem_toFinset, List.mem_map] at h
  obtain ⟨pr, hpr, hx⟩ := h
  exact List.mem_map.mpr ⟨pr, (List.mem_filter.mp hpr).1, hx⟩

theorem mem_declKeysNotFor {x : String} {decls : List (String × String)} {url : String}
    (h : x ∈ declKeysNotFor decls url) : x ∈ decls.map Prod.fst := by
  rw [declKeysNotFor, List.mem_toFinset, List.mem_map] at h
  obtain ⟨pr, hpr, hx⟩ := h
  exact List.mem_map.mpr ⟨pr, (List.mem_filter.mp hpr).1, hx⟩

theorem processDecls_eq_specLevel (url : String) :
    ∀ (decls : List (String × String)) (s : Finset String),
      (decls.map Prod.fst).Nodup →
      processDecls decls url s = specLevel url decls s := by
  intro decls
  induction decls with
  | nil =>
    intro s _
    simp [processDecls, specLevel, declKeysFor, declKeysNotFor]
  | cons pv rest ih =>
    intro s hnodup
    rw [List.map_cons, List.nodup_cons] at hnodup
    obtain ⟨hpv, hrest⟩ := hnodup
    have hstep : processDecls (pv :: rest) url s =
        processDecls rest url
          (if pv.2 = url then insert pv.1 s
           else if pv.1 ∈ s then s.erase pv.1 else s) := by
      rw [processDecls, processDecls, List.foldl_cons]
    rw [hstep, ih _ hrest]
    by_cases hurl : pv.2 = url
    · have hFcons : declKeysFor (pv :: rest) url = insert pv.1 (declKeysFor rest url) := by
        rw [declKeysFor, declKeysFor, List.filter_cons, if_pos (decide_eq_true hurl),
          List.map_cons, List.toFinset_cons]
      have hDcons : declKeysNotFor (pv :: rest) url = declKeysNotFor rest url := by
        rw [declKeysNotFor, declKeysNotFor, List.filter_cons,
          if_neg (by simp [hurl])]
      rw [if_pos hurl, specLevel, specLevel, hFcons, hDcons]
      ext x
      by_cases hx : x = pv.1
      · subst hx
        have hnD : pv.1 ∉ declKeysNotFor rest url :=
          fun hc => hpv (mem_declKeysNotFor hc)
        simp [hnD]
      · simp [Finset.mem_union, Finset.mem_sdiff, Finset.mem_insert, hx]
    · have hFcons : declKeysFor (pv :: rest) url = declKeysFor rest url := by
        rw [declKeysFor, declKeysFor, List.filter_cons, if_neg (by simp [hurl])]
      have hDcons : declKeysNotFor (pv :: rest) url =
          insert pv.1 (declKeysNotFor rest url) := by
        rw [declKeysNotFor, declKeysNotFor, List.filter_cons,
          if_pos (decide_eq_true hurl), List.map_cons, List.toFinset_cons]
      have hstep2 : (if pv.1 ∈ s then s.erase pv.1 else s) = s.erase pv.1 := by
        by_cases hmem : pv.1 ∈ s
        · rw [if_pos hmem]
        · rw [if_neg hmem, Finset.erase_eq_of_not_mem hmem]
      rw [if_neg hurl, hstep2, specLevel, specLevel, hFcons, hDcons]
      ext x
      simp only [Finset.mem_union, Finset.mem_sdiff, Finset.mem_erase, Finset.mem_insert]
      tauto

theorem cnpRec_eq_specCollect {doc : Document} (url : String) :
    ∀ {fuel : Nat} {e : Element} {ch : List Element} (acc : Finset String),
      parentChain doc fuel e = some ch →
      (∀ x ∈ ch, ((declsOf doc x).map Prod.fst).Nodup) →
      cnpRec doc fuel e url acc =
        some (ch.reverse.foldl (fun s x => specLevel url (declsOf doc x) s) acc) := by
  intro fuel
  induction fuel with
  | zero => intro e ch acc h _; exact Option.noConfusion h
  | succ fuel ih =>
    intro e ch acc h hnodup
    rw [parentChain] at h
    rw [cnpRec]
    cases hd : doc.dataOf e with
    | none => rw [hd] at h; exact Option.noConfusion h
    | some d =>
      simp only [hd] at h ⊢
      have hnodup_e : ((declsOf doc e).map Prod.fst).Nodup → True := fun _ => trivial
      cases hp : d.parent with
      | none =>
        simp only [hp] at h ⊢
        rw [Option.some_inj] at h
        subst h
        simp only [List.reverse_cons, List.reverse_nil, List.nil_append,
          List.foldl_cons, List.foldl_nil]
        rw [processDecls_eq_specLevel url d.namespace_decls acc
          (by rw [← declsOf_eq hd]; exact hnodup e (List.mem_singleton.mpr rfl)),
          declsOf_eq hd]
      | some p =>
        simp only [hp] at h ⊢
        cases hch : parentChain doc fuel p with
        | none => rw [hch] at h; exact Option.noConfusion h
        | some chp =>
          rw [hch, Option.map_some', Option.some_inj] at h
          subst h
          rw [ih acc hch (fun x hx => hnodup x (List.mem_cons_of_mem _ hx)),
            Option.map_some', List.reverse_cons, List.foldl_append,
            List.foldl_cons, List.foldl_nil,
            processDecls_eq_specLevel url d.namespace_decls _
              (by rw [← declsOf_eq hd]; exact hnodup e (List.mem_cons_self _ _)),
            declsOf_eq hd]

/-- C2: `collect_namespace_prefixes` computes exactly the set the
specification describes: climb to the root collecting nothing, then,
unwinding back down to the element, add every locally declared prefix
whose target equals the URL and remove every locally declared prefix
whose target differs, the empty prefix starting in the set exactly when
the URL is empty; in particular, with a root declaring
`xmlns:ns2="http://ns1"` and a child re-declaring
`xmlns:ns2="http://ns2"`, the set for the child and `http://ns1`
does not contain `ns2`. -/
theorem c2_collect_namespace_prefixes :
    (∀ (doc : Document) (fuel : Nat) (e : Element) (url : String) (ch : List Element),
      parentChain doc fuel e = some ch →
      (∀ x ∈ ch, ((declsOf doc x).map Prod.fst).Nodup) →
      collectNamespacePrefixes doc fuel e url = some (specCollect doc ch url)) ∧
    (∃ s, collectNamespacePrefixes shadowDoc 5 ⟨2⟩ "http://ns1" = some s ∧ "ns2" ∉ s) := by
  constructor
  · intro doc fuel e url ch hch hnodup
    rw [collectNamespacePrefixes, specCollect]
    exact cnpRec_eq_specCollect url _ hch hnodup
  · refine ⟨∅, by decide, by decide⟩

/-- Witness for C2: the chain of the shadowing child is explicit, every
level has distinct declaration keys, and the general equation applies. -/
theorem c2_collect_namespace_prefixes_witness :
    parentChain shadowDoc 5 ⟨2⟩ = some [⟨2⟩, ⟨1⟩, ⟨0⟩] ∧
    (∀ x ∈ [(⟨2⟩ : Element), ⟨1⟩, ⟨0⟩],
      ((declsOf shadowDoc x).map Prod.fst).Nodup) ∧
    collectNamespacePrefixes shadowDoc 5 ⟨2⟩ "http://ns1" =
      some (specCollect shadowDoc [⟨2⟩, ⟨1⟩, ⟨0⟩] "http://ns1") := by
  refine ⟨by rfl, by decide, ?_⟩
  exact c2_collect_namespace_prefixes.1 shadowDoc 5 ⟨2⟩ "http://ns1" [⟨2⟩, ⟨1⟩, ⟨0⟩]
    (by rfl) (by decide)

/-! ### Text content lemmas -/

theorem strJoin_cons (a : String) (l : List String) :
    String.join (a :: l) = a ++ String.join l := by
  apply String.ext
  simp [String.join_eq, String.data_append]

theorem strJoin_append (l1 l2 : List String) :
    String.join (l1 ++ l2) = String.join l1 ++ String.join l2 := by
  induction l1 with
  | nil =>
    show String.join l2 = String.join [] ++ String.join l2
    rw [show String.join ([] : List String) = "" from rfl, String.empty_append]
  | cons a t ih =>
    rw [List.cons_append, strJoin_cons, strJoin_cons, ih, String.append_assoc]

theorem flattenNodes_cons_leaf (doc : Document) (fuel : Nat) (n : Node) (rest : List Node)
    (hne : n.asElement = none) :
    flattenNodes doc fuel (n :: rest) =
      (flattenNodes doc fuel rest).map (fun rs => n :: rs) := by
  cases n
  case element e => exact absurd hne (by simp [Node.asElement])
  all_goals simp only [flattenNodes]

theorem nodesBuildText_flatten (doc : Document) :
    ∀ (fuel : Nat) (l fl : List Node) (buf : String),
      flattenNodes doc fuel l = some fl →
      nodesBuildText doc fuel l buf =
        some (buf ++ String.join (fl.filterMap pieceOf)) := by
  intro fuel
  induction fuel using Nat.strong_induction_on with
  | _ fuel ihf =>
    intro l
    induction l with
    | nil =>
      intro fl buf h
      rw [flattenNodes, Option.some_inj] at h
      subst h
      rw [nodesBuildText, List.filterMap_nil,
        show String.join ([] : List String) = "" from rfl, String.append_empty]
    | cons n rest ihl =>
      intro fl buf h
      cases n with
      | element e =>
        cases fuel with
        | zero => rw [flattenNodes] at h; exact Option.noConfusion h
        | succ f =>
          rw [flattenNodes] at h
          cases hd : doc.dataOf e with
          | none => rw [hd] at h; exact Option.noConfusion h
          | some d =>
            simp only [hd] at h
            cases hsub : flattenNodes doc f d.children with
            | none => rw [hsub] at h; exact Option.noConfusion h
            | some sub =>
              simp only [hsub] at h
              cases hrs : flattenNodes doc (f + 1) rest with
              | none => rw [hrs] at h; exact Option.noConfusion h
              | some rs =>
                simp only [hrs] at h
                rw [Option.some_inj] at h
                subst h
                rw [nodesBuildText]
                have h1 : nodeBuildText doc (f + 1) (Node.element e) buf =
                    some (buf ++ String.join (sub.filterMap pieceOf)) := by
                  rw [nodeBuildText, elemBuildText]
                  simp only [hd]
                  exact ihf f (by omega) d.children sub buf hsub
                rw [h1]
                show nodesBuildText doc (f + 1) rest
                    (buf ++ String.join (List.filterMap pieceOf sub)) = _
                rw [ihl rs (buf ++ String.join (List.filterMap pieceOf sub)) hrs,
                  List.filterMap_cons_none (by rfl), List.filterMap_append,
                  strJoin_append, String.append_assoc]
      | text s =>
        rw [flattenNodes_cons_leaf doc fuel _ rest (by rfl)] at h
        cases hrs : flattenNodes doc fuel rest with
        | none => rw [hrs] at h; exact Option.noConfusion h
        | some rs =>
          rw [hrs, Option.map_some', Option.some_inj] at h
          subst h
          rw [nodesBuildText, nodeBuildText]
          show nodesBuildText doc fuel rest (buf ++ s) = _
          rw [ihl rs (buf ++ s) hrs,
            List.filterMap_cons_some (by rfl), strJoin_cons, String.append_assoc]
      | cdata s =>
        rw [flattenNodes_cons_leaf doc fuel _ rest (by rfl)] at h
        cases hrs : flattenNodes doc fuel rest with
        | none => rw [hrs] at h; exact Option.noConfusion h
        | some rs =>
          rw [hrs, Option.map_some', Option.some_inj] at h
          subst h
          rw [nodesBuildText, nodeBuildText]
          show nodesBuildText doc fuel rest (buf ++ s) = _
          rw [ihl rs (buf ++ s) hrs,
            List.filterMap_cons_some (by rfl), strJoin_cons, String.append_assoc]
      | pi s =>
        rw [flattenNodes_cons_leaf doc fuel _ rest (by rfl)] at h
        cases hrs : flattenNodes doc fuel rest with
        | none => rw [hrs] at h; exact Option.noConfusion h
        | some rs =>
          rw [hrs, Option.map_some', Option.some_inj] at h
          subst h
          rw [nodesBuildText, nodeBuildText]
          show nodesBuildText doc fuel rest (buf ++ s) = _
          rw [ihl rs (buf ++ s) hrs,
            List.filterMap_cons_some (by rfl), strJoin_cons, String.append_assoc]
      | comment s =>
        rw [flattenNodes_cons_leaf doc fuel _ rest (by rfl)] at h
        cases hrs : flattenNodes doc fuel rest with
        | none => rw [hrs] at h; exact Option.noConfusion h
        | some rs =>
          rw [hrs, Option.map_some', Option.some_inj] at h
          subst h
          rw [nodesBuildText, nodeBuildText]
          show nodesBuildText doc fuel rest buf = _
          rw [ihl rs buf hrs, List.filterMap_cons_none (by rfl)]
      | docType s =>
        rw [flattenNodes_cons_leaf doc fuel _ rest (by rfl)] at h
        cases hrs : flattenNodes doc fuel rest with
        | none => rw [hrs] at h; exact Option.noConfusion h
        | some rs =>
          rw [hrs, Option.map_some', Option.some_inj] at h
          subst h
          rw [nodesBuildText, nodeBuildText]
          show nodesBuildText doc fuel rest buf = _
          rw [ihl rs buf hrs, List.filterMap_cons_none (by rfl)]

/-! ### The writer: sorted attributes and event structure -/

theorem strLt_flip {a b : String} (h1 : strLt a b = false) (h2 : a ≠ b) :
    strLt b a = true := by
  cases hc : strLt b a with
  | true => rfl
  | false => exact absurd (strLt_connex h1 hc) h2

theorem mem_btreeInsert {l : List (String × String)} {kv x : String × String}
    (h : x ∈ btreeInsert l kv) : x = kv ∨ x ∈ l := by
  induction l with
  | nil =>
    rw [btreeInsert] at h
    exact Or.inl (List.mem_singleton.mp h)
  | cons hd tl ih =>
    rw [btreeInsert] at h
    split at h
    · rcases List.mem_cons.mp h with h | h
      · exact Or.inl h
      · exact Or.inr h
    · split at h
      · rcases List.mem_cons.mp h with h | h
        · exact Or.inl h
        · exact Or.inr (List.mem_cons_of_mem _ h)
      · rcases List.mem_cons.mp h with h | h
        · exact Or.inr (h ▸ List.mem_cons_self _ _)
        · rcases ih h with h | h
          · exact Or.inl h
          · exact Or.inr (List.mem_cons_of_mem _ h)

theorem btreeInsert_sorted {l : List (String × String)} {kv : String × String}
    (h : List.Pairwise (fun a b => strLt a.1 b.1 = true) l) :
    List.Pairwise (fun a b => strLt a.1 b.1 = true) (btreeInsert l kv) := by
  induction l with
  | nil => simp [btreeInsert]
  | cons hd tl ih =>
    rw [List.pairwise_cons] at h
    obtain ⟨hhd, htl⟩ := h
    rw [btreeInsert]
    cases hlt : strLt kv.1 hd.1 with
    | true =>
      rw [if_pos rfl]
      refine List.Pairwise.cons ?_ (List.Pairwise.cons hhd htl)
      intro x hx
      rcases List.mem_cons.mp hx with rfl | hx
      · exact hlt
      · exact strLt_trans hlt (hhd x hx)
    | false =>
      rw [if_neg (by simp)]
      by_cases heq : kv.1 = hd.1
      · rw [if_pos heq]
        refine List.Pairwise.cons ?_ htl
        intro x hx
        rw [heq]
        exact hhd x hx
      · rw [if_neg heq]
        refine List.Pairwise.cons ?_ (ih htl)
        intro x hx
        rcases mem_btreeInsert hx with rfl | hx
        · exact strLt_flip hlt heq
        · exact hhd x hx

theorem btreeFoldl_sorted (l : List (String × String)) :
    ∀ acc, List.Pairwise (fun a b => strLt a.1 b.1 = true) acc →
    List.Pairwise (fun a b => strLt a.1 b.1 = true) (l.foldl btreeInsert acc) := by
  induction l with
  | nil => intro acc h; exact h
  | cons hd tl ih => intro acc h; exact ih _ (btreeInsert_sorted h)

theorem btreeInsert_perm {l : List (String × String)} {kv : String × String}
    (h : kv.1 ∉ l.map Prod.fst) :
    List.Perm (btreeInsert l kv) (kv :: l) := by
  induction l with
  | nil => exact List.Perm.refl _
  | cons hd tl ih =>
    rw [List.map_cons, List.mem_cons] at h
    push_neg at h
    obtain ⟨hne, hmem⟩ := h
    rw [btreeInsert]
    cases hlt : strLt kv.1 hd.1 with
    | true =>
      rw [if_pos rfl]
    | false =>
      rw [if_neg (by simp), if_neg hne]
      exact (List.Perm.cons hd (ih hmem)).trans (List.Perm.swap kv hd tl)

theorem btreeFoldl_perm : ∀ (l : List (String × String)),
    ∀ acc, (l.map Prod.fst ++ acc.map Prod.fst).Nodup →
    List.Perm (l.foldl btreeInsert acc) (acc ++ l) := by
  intro l
  induction l with
  | nil =>
    intro acc h
    rw [List.foldl_nil, List.append_nil]
  | cons hd tl ih =>
    intro acc h
    rw [List.map_cons, List.cons_append, List.nodup_cons] at h
    obtain ⟨hnotin, hrest⟩ := h
    have hnacc : hd.1 ∉ acc.map Prod.fst :=
      fun hc => hnotin (List.mem_append_right _ hc)
    have hperm1 : List.Perm (btreeInsert acc hd) (hd :: acc) := btreeInsert_perm hnacc
    have hkeys : List.Perm ((btreeInsert acc hd).map Prod.fst)
        (hd.1 :: acc.map Prod.fst) := hperm1.map Prod.fst
    have hp : List.Perm (tl.map Prod.fst ++ (btreeInsert acc hd).map Prod.fst)
        (hd.1 :: (tl.map Prod.fst ++ acc.map Prod.fst)) :=
      (List.Perm.append_left (tl.map Prod.fst) hkeys).trans List.perm_middle
    have hnodup : (tl.map Prod.fst ++ (btreeInsert acc hd).map Prod.fst).Nodup :=
      hp.nodup_iff.mpr (List.nodup_cons.mpr ⟨hnotin, hrest⟩)
    rw [List.foldl_cons]
    refine (ih (btreeInsert acc hd) hnodup).trans ?_
    exact (hperm1.append_right tl).trans List.perm_middle.symm

theorem btreeFromList_perm (l : List (String × String))
    (h : (l.map Prod.fst).Nodup) : List.Perm (btreeFromList l) l := by
  have := btreeFoldl_perm l [] (by simpa using h)
  simpa [btreeFromList] using this

theorem btreeFromList_sorted (l : List (String × String)) :
    List.Pairwise (fun a b => strLt a.1 b.1 = true) (btreeFromList l) :=
  btreeFoldl_sorted l [] List.Pairwise.nil

theorem btreeFromList_perm_eq {l1 l2 : List (String × String)}
    (hp : List.Perm l1 l2) (hn : (l1.map Prod.fst).Nodup) :
    btreeFromList l1 = btreeFromList l2 := by
  have hn2 : (l2.map Prod.fst).Nodup := (hp.map Prod.fst).nodup_iff.mp hn
  have p1 := btreeFromList_perm l1 hn
  have p2 := btreeFromList_perm l2 hn2
  have hperm : List.Perm (btreeFromList l1) (btreeFromList l2) :=
    p1.trans (hp.trans p2.symm)
  haveI : IsAntisymm (String × String) (fun a b => strLt a.1 b.1 = true) :=
    ⟨fun a b h1 h2 => by
      rw [strLt_asymm h1] at h2
      exact Bool.noConfusion h2⟩
  exact List.eq_of_perm_of_sorted hperm (btreeFromList_sorted l1)
    (btreeFromList_sorted l2)

/-! ### External namespace declarations -/

theorem cedChildren_eq_spec (doc : Document) (fuel : Nat)
    (hrec : ∀ (e : Element) (known unknown : Finset String),
      cedRec doc fuel e known unknown =
        (specUnknown doc fuel e known).map (fun s => unknown ∪ s)) :
    ∀ (l : List Element) (known unknown : Finset String),
      cedChildren doc fuel l known unknown =
        (specUnknownList doc fuel l known).map (fun s => unknown ∪ s) := by
  intro l
  induction l with
  | nil =>
    intro known unknown
    simp [cedChildren, specUnknownList]
  | cons c rest ih =>
    intro known unknown
    simp only [cedChildren, specUnknownList]
    rw [hrec c known unknown]
    cases hs : specUnknown doc fuel c known with
    | none => simp
    | some s1 =>
      simp only [Option.map_some']
      show cedChildren doc fuel rest known (unknown ∪ s1) = _
      rw [ih known (unknown ∪ s1)]
      cases hs2 : specUnknownList doc fuel rest known with
      | none => simp
      | some s2 => simp [Finset.union_assoc]

theorem cedRec_eq_spec :
    ∀ (fuel : Nat) (doc : Document) (e : Element) (known unknown : Finset String),
      cedRec doc fuel e known unknown =
        (specUnknown doc fuel e known).map (fun s => unknown ∪ s) := by
  intro fuel
  induction fuel with
  | zero =>
    intro doc e known unknown
    simp [cedRec, specUnknown]
  | succ fuel ih =>
    intro doc e known unknown
    cases hd : doc.dataOf e with
    | none => simp [cedRec, specUnknown, hd]
    | some d =>
      simp only [cedRec, specUnknown, hd]
      have hk : (if d.namespace_decls.isEmpty then known
          else known ∪ (d.namespace_decls.map Prod.fst).toFinset) =
          known ∪ (d.namespace_decls.map Prod.fst).toFinset := by
        cases hdd : d.namespace_decls with
        | nil => simp
        | cons a l => rfl
      rw [cedChildren_eq_spec doc fuel (ih doc), hk]
      cases hs : specUnknownList doc fuel (d.children.filterMap Node.asElement)
          (known ∪ (d.namespace_decls.map Prod.fst).toFinset) with
      | none => simp
      | some s =>
        by_cases hm : (separatePrefixName d.full_name).1 ∈ known
        · simp [hm]
        · simp only [hm, if_false, Option.map_some', Option.some_inj]
          ext x
          simp only [Finset.mem_insert, Finset.mem_union, Finset.mem_singleton]
          tauto

theorem resolveAll_ok (doc : Document) (fuel : Nat) (e : Element) :
    ∀ l : List String,
      (∀ p ∈ l, ∃ u, namespaceForPrefix doc fuel e p = some (some u)) →
      ∃ m, resolveAll doc fuel e l = some (some m) ∧
        ∀ p u, (p, u) ∈ m ↔ p ∈ l ∧ namespaceForPrefix doc fuel e p = some (some u) := by
  intro l
  induction l with
  | nil =>
    intro h
    exact ⟨∅, rfl, by simp⟩
  | cons p rest ih =>
    intro h
    obtain ⟨u, hu⟩ := h p (List.mem_cons_self _ _)
    obtain ⟨m, hm, hmem⟩ := ih (fun q hq => h q (List.mem_cons_of_mem _ hq))
    refine ⟨insert (p, u) m, ?_, ?_⟩
    · simp only [resolveAll, hu, hm]
    · intro q v
      constructor
      · intro hqv
        rcases Finset.mem_insert.mp hqv with heq | hqm
        · rw [Prod.mk.injEq] at heq
          obtain ⟨rfl, rfl⟩ := heq
          exact ⟨List.mem_cons_self _ _, hu⟩
        · obtain ⟨hq, hv⟩ := (hmem q v).mp hqm
          exact ⟨List.mem_cons_of_mem _ hq, hv⟩
      · rintro ⟨hq, hv⟩
        rcases List.mem_cons.mp hq with rfl | hq2
        · have hvu : v = u := by
            rw [hu] at hv
            exact (Option.some_inj.mp (Option.some_inj.mp hv)).symm
          rw [hvu]
          exact Finset.mem_insert_self _ _
        · exact Finset.mem_insert_of_mem ((hmem q v).mpr ⟨hq2, hv⟩)

theorem resolveAll_panic (doc : Document) (fuel : Nat) (e : Element) :
    ∀ l : List String,
      (∀ p ∈ l, namespaceForPrefix doc fuel e p ≠ none) →
      (∃ p ∈ l, namespaceForPrefix doc fuel e p = some none) →
      resolveAll doc fuel e l = some none := by
  intro l
  induction l with
  | nil =>
    rintro _ ⟨p, hp, _⟩
    exact absurd hp (List.not_mem_nil p)
  | cons p rest ih =>
    rintro hne ⟨q, hq, hqn⟩
    cases hv : namespaceForPrefix doc fuel e p with
    | none => exact absurd hv (hne p (List.mem_cons_self _ _))
    | some o =>
      cases o with
      | none => simp only [resolveAll, hv]
      | some u =>
        have hq2 : q ∈ rest := by
          rcases List.mem_cons.mp hq with rfl | h
          · rw [hv] at hqn
            exact Option.noConfusion (Option.some_inj.mp hqn)
          · exact h
        have hrest := ih (fun r hr => hne r (List.mem_cons_of_mem _ hr)) ⟨q, hq2, hqn⟩
        simp only [resolveAll, hv, hrest]

/-- C6: `collect_external_namespace_decls` returns the map whose keys
are exactly the prefixes used inside the subtree but not declared
within it (per-branch tracking of redeclarations, as `specUnknown`
describes), each mapped to the URL the walk-up from the collection
root resolves it to; a used prefix the walk-up cannot resolve is the
fatal panic, not a recoverable result. -/
theorem c6_collect_external_decls :
    ∀ (doc : Document) (fuel : Nat) (e : Element) (su : Finset String),
      specUnknown doc fuel e ∅ = some su →
      ((∀ p ∈ su, ∃ u, namespaceForPrefix doc fuel e p = some (some u)) →
        ∃ m, collectExternalNamespaceDecls doc fuel e = some (some m) ∧
          ∀ p u, (p, u) ∈ m ↔ p ∈ su ∧ namespaceForPrefix doc fuel e p = some (some u)) ∧
      ((∀ p ∈ su, namespaceForPrefix doc fuel e p ≠ none) →
        (∃ p ∈ su, namespaceForPrefix doc fuel e p = some none) →
        collectExternalNamespaceDecls doc fuel e = some none) := by
  intro doc fuel e su hsu
  have hced : cedRec doc fuel e ∅ ∅ = some su := by
    rw [cedRec_eq_spec, hsu]
    simp
  constructor
  · intro hall
    obtain ⟨m, hm, hmem⟩ := resolveAll_ok doc fuel e (su.sort strLe)
      (fun p hp => hall p ((Finset.mem_sort strLe).mp hp))
    refine ⟨m, ?_, ?_⟩
    · simp only [collectExternalNamespaceDecls, hced]
      exact hm
    · intro p u
      rw [hmem p u, Finset.mem_sort]
  · intro hne hex
    obtain ⟨p, hp, hpn⟩ := hex
    have hpanic := resolveAll_panic doc fuel e (su.sort strLe)
      (fun q hq => hne q ((Finset.mem_sort strLe).mp hq))
      ⟨p, (Finset.mem_sort strLe).mpr hp, hpn⟩
    simp only [collectExternalNamespaceDecls, hced]
    exact hpanic

/-- Witness for C6: on `cedDoc`, the subtree of `child` uses the
prefixes `""` and `ns1` without declaring them (its own `ns2`
redeclaration keeps `ns2` internal), and both resolve to
`http://ns1`, so the collected external declarations are exactly
those two bindings. -/
theorem c6_collect_external_decls_witness :
    specUnknown cedDoc 5 ⟨2⟩ ∅ = some {"", "ns1"} ∧
    (∀ p ∈ ({"", "ns1"} : Finset String),
      ∃ u, namespaceForPrefix cedDoc 5 ⟨2⟩ p = some (some u)) ∧
    ∃ m, collectExternalNamespaceDecls cedDoc 5 ⟨2⟩ = some (some m) ∧
      ∀ p u, (p, u) ∈ m ↔
        p ∈ ({"", "ns1"} : Finset String) ∧
        namespaceForPrefix cedDoc 5 ⟨2⟩ p = some (some u) := by
  have hsu : specUnknown cedDoc 5 ⟨2⟩ ∅ = some {"", "ns1"} := by
    simp [specUnknown, specUnknownList, cedDoc, Document.dataOf,
      separatePrefixName, splitOnce, Node.asElement]
    decide
  have hres : ∀ p ∈ ({"", "ns1"} : Finset String),
      ∃ u, namespaceForPrefix cedDoc 5 ⟨2⟩ p = some (some u) := by
    intro p hp
    rcases Finset.mem_insert.mp hp with rfl | hp1
    · exact ⟨"http://ns1", by rfl⟩
    · rw [Finset.mem_singleton] at hp1
      subst hp1
      exact ⟨"http://ns1", by rfl⟩
  exact ⟨hsu, hres, (c6_collect_external_decls cedDoc 5 ⟨2⟩ {"", "ns1"} hsu).1 hres⟩

/-- C8: every written element carries its attributes and namespace
declarations in lexicographically sorted key order independent of
insertion order (`BTreeMap` semantics), a childless element is one
self-closing `Empty` event, and an element with children is a `Start`
event, the recursively written children in order, and an `End` event. -/
theorem c8_writer :
    (∀ l : List (String × String),
      List.Pairwise (fun a b => strLt a.1 b.1 = true) (btreeFromList l)) ∧
    (∀ l1 l2 : List (String × String), List.Perm l1 l2 →
      (l1.map Prod.fst).Nodup → btreeFromList l1 = btreeFromList l2) ∧
    (∀ (doc : Document) (fuel : Nat) (e : Element) (d : ElementData),
      doc.dataOf e = some d →
      (d.children = [] →
        writeElement doc (fuel + 1) e =
          some [XmlEvent.empty d.full_name (writtenAttrs d)]) ∧
      (d.children ≠ [] →
        writeElement doc (fuel + 1) e =
          (writeNodes doc fuel d.children).map
            (fun evs => XmlEvent.start d.full_name (writtenAttrs d) ::
              (evs ++ [XmlEvent.endTag d.full_name])))) := by
  refine ⟨btreeFromList_sorted, fun l1 l2 hp hn => btreeFromList_perm_eq hp hn, ?_⟩
  intro doc fuel e d hd
  constructor
  · intro hc
    simp [writeElement, hd, hc]
  · intro hc
    have hie : d.children.isEmpty = false := by
      cases hcc : d.children with
      | nil => exact absurd hcc hc
      | cons a l => rfl
    cases hw : writeNodes doc fuel d.children with
    | none => simp [writeElement, hd, hie, hw]
    | some evs => simp [writeElement, hd, hie, hw]

/-- Witness for C8: on `wrDoc`, the attributes inserted as `b, a` come
out sorted `a, b`, insertion order does not matter, and the childless
element `t` is written as one self-closing event whose attribute list
is the sorted attributes followed by the sorted namespace attributes. -/
theorem c8_writer_witness :
    List.Perm [(("b" : String), ("2" : String)), ("a", "1")] [("a", "1"), ("b", "2")] ∧
    (List.map Prod.fst [(("b" : String), ("2" : String)), ("a", "1")]).Nodup ∧
    btreeFromList [("b", "2"), ("a", "1")] = btreeFromList [("a", "1"), ("b", "2")] ∧
    btreeFromList [("b", "2"), ("a", "1")] = [("a", "1"), ("b", "2")] ∧
    List.Pairwise (fun a b => strLt a.1 b.1 = true)
      (btreeFromList [("b", "2"), ("a", "1")]) ∧
    wrDoc.dataOf ⟨1⟩ =
      some ⟨"t", [("b", "2"), ("a", "1")], [("z", "uz"), ("", "u0")], some ⟨0⟩, []⟩ ∧
    writeElement wrDoc 1 ⟨1⟩ =
      some [XmlEvent.empty "t"
        (writtenAttrs ⟨"t", [("b", "2"), ("a", "1")], [("z", "uz"), ("", "u0")],
          some ⟨0⟩, []⟩)] ∧
    writtenAttrs ⟨"t", [("b", "2"), ("a", "1")], [("z", "uz"), ("", "u0")],
        some ⟨0⟩, []⟩ =
      [("a", "1"), ("b", "2"), ("xmlns", "u0"), ("xmlns:z", "uz")] := by
  refine ⟨List.Perm.swap _ _ _, by decide,
    c8_writer.2.1 _ _ (List.Perm.swap _ _ _) (by decide), by rfl, c8_writer.1 _,
    by rfl,
    (c8_writer.2.2 wrDoc 0 ⟨1⟩ _ (by rfl)).1 (by rfl), by rfl⟩

/-- C9: `text_content` concatenates, in document order, the contents of
every text, CDATA and processing-instruction node of the subtree, with
comments and doctypes contributing nothing; for `Node::text_content`
likewise. -/
theorem c9_text_content :
    (∀ (doc : Document) (fuel : Nat) (e : Element) (d : ElementData) (fl : List Node),
      doc.dataOf e = some d →
      flattenNodes doc fuel d.children = some fl →
      textContent doc (fuel + 1) e = some (String.join (fl.filterMap pieceOf))) ∧
    (∀ (doc : Document) (fuel : Nat) (n : Node) (fl : List Node),
      flattenNodes doc fuel [n] = some fl →
      nodeTextContent doc fuel n = some (String.join (fl.filterMap pieceOf))) := by
  constructor
  · intro doc fuel e d fl hd hfl
    rw [textContent, elemBuildText]
    simp only [hd]
    rw [nodesBuildText_flatten doc fuel d.children fl "" hfl, String.empty_append]
  · intro doc fuel n fl hfl
    have h := nodesBuildText_flatten doc fuel [n] fl "" hfl
    rw [nodesBuildText] at h
    cases hb : nodeBuildText doc fuel n "" with
    | none => rw [hb] at h; exact Option.noConfusion h
    | some b =>
      rw [hb] at h
      simp only [nodesBuildText] at h
      rw [nodeTextContent, hb, h, String.empty_append]

/-- Witness for C9: on `tcDoc`, the flattened subtree of `core` yields
`"ABPC"`: texts `A`, `B`, the PI `P` and the CDATA `C` in document
order, the comment contributing nothing. -/
theorem c9_text_content_witness :
    tcDoc.dataOf ⟨1⟩ =
      some ⟨"core", [], [], some ⟨0⟩,
        [Node.text "A", Node.element ⟨2⟩, Node.comment "x", Node.cdata "C"]⟩ ∧
    (∃ fl, flattenNodes tcDoc 5
        [Node.text "A", Node.element ⟨2⟩, Node.comment "x", Node.cdata "C"] = some fl ∧
      textContent tcDoc 6 ⟨1⟩ = some (String.join (fl.filterMap pieceOf))) := by
  refine ⟨by rfl, [Node.text "A", Node.element ⟨2⟩, Node.text "B", Node.pi "P",
    Node.comment "x", Node.cdata "C"],
    by simp [flattenNodes, Document.dataOf, tcDoc], ?_⟩
  exact c9_text_content.1 tcDoc 5 ⟨1⟩
    ⟨"core", [], [], some ⟨0⟩,
      [Node.text "A", Node.element ⟨2⟩, Node.comment "x", Node.cdata "C"]⟩
    [Node.text "A", Node.element ⟨2⟩, Node.text "B", Node.pi "P",
      Node.comment "x", Node.cdata "C"] (by rfl)
    (by simp [flattenNodes, Document.dataOf, tcDoc])

end XmlDoc
